/-
Verification development for the degeneracy-ordering module and the driver of
the exact-near-clique-counting repository.

The embedding models, from `src/degeneracy_helper.c`:
  * the bucket-based peeling loop shared verbatim by `computeDegeneracy`,
    `computeDegeneracyOrderList`, `computeDegeneracyOrderArray` and
    `computeDegeneracyOrderArrayVerticesSorted` (the four C functions differ
    only in which extra per-removal records they keep, so a single state
    machine with all the fields embeds all of them; each C function reads off
    its own fields of the final state);
  * the conversion of the per-vertex linked lists to arrays, including the
    renaming/sorting variant.
and from `src/degeneracy_cliques.c`:
  * `main`'s argument validation (argc check and the getopt switch) and its
    basename/extension manipulation.

C `int` arrays indexed by vertex or by degree are modelled as total functions
from `Nat`; C reads/writes outside the allocated range are undefined
behaviour, and the theorems only concern inputs (simple symmetric graphs) for
which the C code never goes out of bounds, which is proved where relevant.
The `while` loop is given explicit fuel; the value `none` models an execution
that the C code does not complete normally (out-of-bounds bucket access, or
non-termination), and it is proved unreachable for valid inputs.
-/
import Mathlib

namespace DegCliques

/-! ### The input graph

A graph is an array of adjacency lists (`LinkedList** list` in the C code),
vertex `v`'s neighbours being `list[v]`.  `size` is the array length. -/

abbrev Graph := List (List Nat)

/-- Adjacency list of vertex `v` (the contents of `list[v]`). -/
def nbrs (g : Graph) (v : Nat) : List Nat := g.getD v []

/-- The input contract from the spec: a finite simple symmetric graph.
All neighbour ids are in range, adjacency lists have no duplicates, no vertex
is its own neighbour, and `(u,v) ∈ E ↔ v ∈ N(u) ∧ u ∈ N(v)` (symmetry). -/
abbrev SimpleSym (g : Graph) : Prop :=
  (∀ v < g.length, (∀ u ∈ nbrs g v, u < g.length) ∧ (nbrs g v).Nodup ∧ v ∉ nbrs g v) ∧
  ∀ v < g.length, ∀ u < g.length, (u ∈ nbrs g v ↔ v ∈ nbrs g u)

/-! ### State of the peeling loop -/

/-- The per-vertex record built by the ordering routines (C `struct NeighborList`;
`earlier` and `later` are its two linked lists, filled by `addLast`). -/
structure NeighborList where
  vertex : Nat
  orderNumber : Nat
  later : List Nat
  earlier : List Nat
deriving DecidableEq

/-- Pointwise update of a function, modelling a C array store `f[i] = a`. -/
def upd {α : Type} (f : Nat → α) (i : Nat) (a : α) : Nat → α :=
  fun j => if j = i then a else f j

/-- The combined mutable state of the peeling loop.  `buckets` is
`verticesByDegree` (each bucket a LIFO list, `addFirst` prepending), `degree`
is the `degree` array (`-1` marks a removed vertex), `ordering` the
`NeighborList` records, `vertexMapping` the rank map kept only by
`computeDegeneracyOrderArrayVerticesSorted`, and the last three fields are the
local variables `degeneracy`, `currentDegree`, `numVerticesRemoved`. -/
structure PeelState where
  buckets : Nat → List Nat
  degree : Nat → Int
  ordering : Nat → NeighborList
  vertexMapping : Nat → Nat
  degeneracy : Nat
  currentDegree : Nat
  numRemoved : Nat

/-- Initialisation: `degree[i] = length(list[i])` and
`addFirst(verticesByDegree[degree[i]], i)` for `i = 0 .. size-1`. -/
def initState (g : Graph) : PeelState where
  buckets :=
    (List.range g.length).foldl
      (fun bs i => upd bs (nbrs g i).length (i :: bs (nbrs g i).length))
      (fun _ => [])
  degree := fun v => ((nbrs g v).length : Int)
  ordering := fun _ => { vertex := 0, orderNumber := 0, later := [], earlier := [] }
  vertexMapping := fun _ => 0
  degeneracy := 0
  currentDegree := 0
  numRemoved := 0

/-- Body of the inner neighbour loop for one neighbour `u` of the vertex `v`
being removed.  If `u` is live (`degree[u] != -1`): `deleteLink` removes `u`
from its bucket, `u` is appended to `v`'s `later` list, `degree[u]` is
decremented and, unless it became `-1`, `u` is prepended to its new bucket.
If `u` is dead, `u` is appended to `v`'s `earlier` list. -/
def processNeighbor (s : PeelState) (v u : Nat) : PeelState :=
  let du := s.degree u
  if du ≠ -1 then
    let bs1 := upd s.buckets du.toNat ((s.buckets du.toNat).erase u)
    let r := s.ordering v
    let ord1 := upd s.ordering v { r with later := r.later ++ [u] }
    let deg1 := upd s.degree u (du - 1)
    let bs2 :=
      if du - 1 ≠ -1 then upd bs1 (du - 1).toNat (u :: bs1 (du - 1).toNat) else bs1
    { s with buckets := bs2, ordering := ord1, degree := deg1 }
  else
    let r := s.ordering v
    { s with ordering := upd s.ordering v { r with earlier := r.earlier ++ [u] } }

/-- Start of one removal, in C order: `degeneracy = max(degeneracy,
currentDegree)`; `deleteLink` removes `v`, the head of
`verticesByDegree[currentDegree]`, from its bucket; `v`'s record gets its id
and rank (`orderNumber = numVerticesRemoved`, and `vertexMapping[v]` likewise
in the sorted variant); `degree[v] = -1`. -/
def removeStepPre (st : PeelState) (v : Nat) : PeelState :=
  { st with
    degeneracy := max st.degeneracy st.currentDegree
    buckets := upd st.buckets st.currentDegree (st.buckets st.currentDegree).tail
    ordering := upd st.ordering v
      { st.ordering v with vertex := v, orderNumber := st.numRemoved }
    vertexMapping := upd st.vertexMapping v st.numRemoved
    degree := upd st.degree v (-1) }

/-- The rest of the removal: the neighbour loop over `list[v]`, then
`numVerticesRemoved++` and `currentDegree = 0`. -/
def removeStep (g : Graph) (st : PeelState) (v : Nat) : PeelState :=
  let st2 := (nbrs g v).foldl (fun s u => processNeighbor s v u) (removeStepPre st v)
  { st2 with numRemoved := st.numRemoved + 1, currentDegree := 0 }

/-- The `while (numVerticesRemoved < size)` loop.  Each iteration either
removes the head of `verticesByDegree[currentDegree]` or, if that bucket is
empty, increments `currentDegree`.  `none` models the executions the C code
does not complete normally: `currentDegree` reaching `size` (out-of-bounds
bucket access) or running out of fuel. -/
def peelLoop (g : Graph) : Nat → PeelState → Option PeelState
  | 0, _ => none
  | fuel + 1, st =>
    if st.numRemoved < g.length then
      if st.currentDegree < g.length then
        match st.buckets st.currentDegree with
        | [] => peelLoop g fuel { st with currentDegree := st.currentDegree + 1 }
        | v :: _ => peelLoop g fuel (removeStep g st v)
      else none
    else some st

/-- Enough fuel for any valid run: at most `size` removals, each preceded by
at most `size` cursor increments (proved below via `peelMeasure`). -/
def peelFuel (g : Graph) : Nat := (g.length + 1) * (g.length + 2)

/-- Run the peeling loop from the initial state. -/
def runPeel (g : Graph) : Option PeelState := peelLoop g (peelFuel g) (initState g)

/-- `computeDegeneracy` (degeneracy_helper.c:53): the peeling loop's final
`degeneracy` value. -/
def computeDegeneracy (g : Graph) : Option Nat := (runPeel g).map (·.degeneracy)

/-- C `struct NeighborListArray`: the array form of a `NeighborList`.
The `laterDegree`/`earlierDegree` fields are the array lengths. -/
structure NeighborListArray where
  vertex : Nat
  orderNumber : Nat
  later : List Nat
  earlier : List Nat
deriving DecidableEq

instance : Inhabited NeighborListArray := ⟨⟨0, 0, [], []⟩⟩

/-- `laterDegree = length(ordering[i]->later)` (degeneracy_helper.c:384). -/
def NeighborListArray.laterDegree (a : NeighborListArray) : Nat := a.later.length

/-- `earlierDegree = length(ordering[i]->earlier)` (degeneracy_helper.c:395). -/
def NeighborListArray.earlierDegree (a : NeighborListArray) : Nat := a.earlier.length

/-- `computeDegeneracyOrderArray` (degeneracy_helper.c:279): run the loop and
copy each vertex's linked lists into arrays, preserving order; slot `i` holds
vertex `i`'s record. -/
def computeDegeneracyOrderArray (g : Graph) : Option (List NeighborListArray) :=
  (runPeel g).map fun st =>
    (List.range g.length).map fun i =>
      { vertex := (st.ordering i).vertex
        orderNumber := (st.ordering i).orderNumber
        later := (st.ordering i).later
        earlier := (st.ordering i).earlier }

/-- `qsort(a, n, sizeof(int), qsortComparator)` on an int array whose entries
are vertex ranks: sort ascending (the comparator subtracts). -/
def sortNat (l : List Nat) : List Nat := l.mergeSort fun a b => decide (a ≤ b)

/-- `computeDegeneracyOrderArrayVerticesSorted` (degeneracy_helper.c:435):
after the loop, slot `i = vertexMapping[v]` receives `vertex = orderNumber = i`
and `v`'s `later`/`earlier` entries translated through `vertexMapping` and
sorted.  Slots never written (impossible for valid inputs, where
`vertexMapping` is a permutation) read as the default record, modelling the C
code's uninitialised `Calloc` slots. -/
def computeDegeneracyOrderArrayVerticesSorted (g : Graph) :
    Option (List NeighborListArray) :=
  (runPeel g).map fun st =>
    let slots : Nat → NeighborListArray :=
      (List.range g.length).foldl
        (fun arr v =>
          let i := st.vertexMapping v
          upd arr i
            { vertex := i
              orderNumber := i
              later := sortNat ((st.ordering v).later.map st.vertexMapping)
              earlier := sortNat ((st.ordering v).earlier.map st.vertexMapping) })
        (fun _ => default)
    (List.range g.length).map slots

/-! ### The driver: `main` of `src/degeneracy_cliques.c`

Modelled: the argc check, the getopt option loop with its validity checks,
and the derivation of the output basename.  The model stops where `main`
calls `runAndPrintStatsCliques` (the enumerator is outside the scope of the
claims about the driver); `reachedLoad` records whether execution got to
`readInGraphAdjListToDoubleEdges`. -/

/-- Outcome of a run of `main`: normal exit with a code and the lines printed,
or `abort()` (the getopt `default:` case), which terminates by signal. -/
inductive CmdResult where
  | exited (code : Int) (lines : List String) (reachedLoad : Bool)
  | aborted (lines : List String)
deriving DecidableEq

/-- Exit status of the process, when it exited normally. -/
def CmdResult.exitCode : CmdResult → Option Int
  | .exited c _ _ => some c
  | .aborted _ => none

/-- The values `main` accumulates while scanning options. -/
structure ArgState where
  fpath : String
  t : Char
  maxK : Int
  flagD : Int
  flagO : Int
deriving DecidableEq

/-- The usage text printed when `argc != 11` (degeneracy_cliques.c:49-55),
one entry per `printf` line. -/
def usageLines : List String :=
  [ "Incorrect number of arguments."
  , "./degeneracy_cliques -i <file_path> -t <type> -k <max_clique_size> -d <data_flag> -o <optimize>"
  , "file_path: path to file"
  , "type: A/V/E. A for just k-clique information, V for per-vertex k-cliques, E for per-edge k-cliques"
  , "max_clique_size: max_clique_size. If 0, calculate for all k."
  , "data_flag: 1 if information is to be output to a file, 0 otherwise."
  , "optimize: 1 if you want to use near clique new code or 0 for old method." ]

/-- Diagnostic for an invalid `-t` value (degeneracy_cliques.c:84). -/
def typeErrLine : String := "Incorrect type. Type should be A, V or E."

/-- Diagnostic for an out-of-range `-d` value (degeneracy_cliques.c:95). -/
def dErrLine : String := "Incorrect flag for data. Shoudld be 0, 1 or 2."

/-- Diagnostic for an out-of-range `-o` value (degeneracy_cliques.c:103). -/
def oErrLine : String := "Incorrect flag for data. Shoudld be 0 or 1"

/-- Line printed by the getopt `default:` case before `abort()`. -/
def defaultCaseLine : String := "In default case."

/-- Lines printed on the path that reaches the graph load and the enumerator
(the model stops at `runAndPrintStatsCliques`). -/
def successLines : List String := ["New code.", "about to call runAndPrint."]

/-- Value of a decimal digit string prefix, as read by `atoi`. -/
def digitsVal (l : List Char) : Nat :=
  (l.takeWhile Char.isDigit).foldl (fun a c => 10 * a + (c.toNat - 48)) 0

/-- C `atoi`: skip whitespace, optional sign, value of the digit prefix
(0 when there are no digits). -/
def atoi (s : String) : Int :=
  let l := s.toList.dropWhile fun c =>
    decide (c = ' ') || decide (c = '\t') || decide (c = '\n') || decide (c = '\r')
  match l with
  | '-' :: rest => -(digitsVal rest : Int)
  | '+' :: rest => (digitsVal rest : Int)
  | _ => (digitsVal l : Int)

/-- `*optarg`: the first character of the option argument (`'\0'` when the
argument is the empty string). -/
def headCharD (s : String) : Char := s.toList.headD (Char.ofNat 0)

/-- One execution of the switch body for option character `c` with argument
`arg` (degeneracy_cliques.c:72-110): either an immediate result (an invalid
value's `printf` + `return 0`) or the updated locals. -/
def applyOpt (c : Char) (arg : String) (ps : ArgState) : CmdResult ⊕ ArgState :=
  if c = 'i' then .inr { ps with fpath := arg }
  else if c = 't' then
    let tc := headCharD arg
    if tc ≠ 'A' ∧ tc ≠ 'V' ∧ tc ≠ 'E' then .inl (.exited 0 [typeErrLine] false)
    else .inr { ps with t := tc }
  else if c = 'k' then .inr { ps with maxK := atoi arg }
  else if c = 'd' then
    let fd := atoi arg
    if fd < 0 ∨ fd > 2 then .inl (.exited 0 [dErrLine] false)
    else .inr { ps with flagD := fd }
  else
    let fo := atoi arg
    if fo < 0 ∨ fo > 1 then .inl (.exited 0 [oErrLine] false)
    else .inr { ps with flagO := fo }

/-- The `while ((opt = getopt(...)) != -1)` loop over the argument vector
after the program name, for glibc getopt with optstring `":i:t:k:d:o:"`.
An option's argument is the remainder of its own token (`-tA`) or the next
token; a known option with no argument left makes getopt return `':'` and an
unknown option makes it return `'?'`, both of which hit the `default:` case
(`printf` + `abort()`).  `--` ends option scanning; non-option tokens are
permuted past the options by GNU getopt, i.e. skipped by the scan. -/
def optLoop : List String → ArgState → CmdResult
  | [], _ => .exited 0 successLines true
  | a :: rest, ps =>
    match a.toList with
    | '-' :: '-' :: [] => .exited 0 successLines true
    | '-' :: c :: cs =>
      if c = 'i' ∨ c = 't' ∨ c = 'k' ∨ c = 'd' ∨ c = 'o' then
        match cs with
        | c2 :: cs2 =>
          match applyOpt c (String.mk (c2 :: cs2)) ps with
          | .inl r => r
          | .inr ps2 => optLoop rest ps2
        | [] =>
          match rest with
          | [] => .aborted [defaultCaseLine]
          | b :: rest2 =>
            match applyOpt c b ps with
            | .inl r => r
            | .inr ps2 => optLoop rest2 ps2
      else .aborted [defaultCaseLine]
    | _ => optLoop rest ps

/-- `main` (degeneracy_cliques.c:44): the `argc != 11` usage check
(`printf`s + `return 0`), then the getopt loop.  `argv` includes the program
name, so `argv.length` is `argc`.  The uninitialised C locals `t`, `flag_d`,
`flag_o` are modelled as `'\0'`, `0`, `0`. -/
def mainModel (argv : List String) : CmdResult :=
  if argv.length ≠ 11 then .exited 0 usageLines false
  else optLoop (argv.drop 1) { fpath := "", t := Char.ofNat 0, maxK := 0, flagD := 0, flagO := 0 }

/-! ### Basename manipulation in `main` (degeneracy_cliques.c:120-124) -/

/-- POSIX `basename(3)` (the `<libgen.h>` version linked here): the final
pathname component, with trailing slashes removed; `"."` for the empty
string and `"/"` for all-slash paths. -/
def cBasename (p : List Char) : List Char :=
  if p = [] then ['.']
  else
    let q := p.reverse.dropWhile fun c => decide (c = '/')
    if q = [] then ['/']
    else (q.takeWhile fun c => decide (c ≠ '/')).reverse

/-- The `strrchr(gname, '.')` truncation: cut the name at its last `'.'`
(`*lastdot = '\0'`), leaving it unchanged when it contains no dot. -/
def stripLastExt : List Char → List Char
  | [] => []
  | c :: cs => if c = '.' ∧ '.' ∉ cs then [] else c :: stripLastExt cs

/-- `gname` as computed by `main`: `basename(fpath)` truncated at its last
dot when one exists. -/
def mainOutputBasename (p : List Char) : List Char := stripLastExt (cBasename p)

/-- A canonical well-formed argument vector
`./degeneracy_cliques -i f -t tt -k kk -d dd -o oo` (argc = 11). -/
def mkArgv (f tt kk dd oo : String) : List String :=
  ["./degeneracy_cliques", "-i", f, "-t", tt, "-k", kk, "-d", dd, "-o", oo]

/-! ### Invariants of the peeling loop

The predicates below are the loop invariant of the `while` loop shared by
`computeDegeneracy` and the ordering routines, used to prove the claims about
their outputs. -/

/-- A vertex is live while it has not been removed (`degree[v] != -1`). -/
abbrev live (s : PeelState) (v : Nat) : Prop := s.degree v ≠ -1

/-- The rank a vertex received at its removal (`orderNumber`). -/
abbrev rk (s : PeelState) (v : Nat) : Nat := (s.ordering v).orderNumber

/-- The invariant holding at the head of every iteration of the peeling loop
over a simple symmetric graph `g`. -/
structure PeelInv (g : Graph) (s : PeelState) : Prop where
  deg_live : ∀ v < g.length, live s v →
    s.degree v = ((nbrs g v).countP fun u => decide (live s u) : Nat)
  bucket_mem : ∀ v < g.length, live s v → v ∈ s.buckets (s.degree v).toNat
  mem_bucket : ∀ d : Nat, ∀ v ∈ s.buckets d, v < g.length ∧ live s v ∧ s.degree v = (d : Int)
  bucket_nodup : ∀ d : Nat, (s.buckets d).Nodup
  rank_lt : ∀ v < g.length, ¬live s v → rk s v < s.numRemoved
  rank_inj : ∀ v < g.length, ∀ u < g.length,
    ¬live s v → ¬live s u → rk s v = rk s u → v = u
  dead_count : ((List.range g.length).countP fun v => decide (¬live s v)) = s.numRemoved
  cursor : ∀ d < s.currentDegree, s.buckets d = []
  live_lists : ∀ v < g.length, live s v →
    (s.ordering v).later = [] ∧ (s.ordering v).earlier = []
  dead_later : ∀ v < g.length, ¬live s v → (s.ordering v).later =
    (nbrs g v).filter fun u => decide (live s u) || decide (rk s v < rk s u)
  dead_earlier : ∀ v < g.length, ¬live s v → (s.ordering v).earlier =
    (nbrs g v).filter fun u => decide (¬live s u) && decide (rk s u < rk s v)
  dead_vertex : ∀ v < g.length, ¬live s v → (s.ordering v).vertex = v
  dead_vm : ∀ v < g.length, ¬live s v → s.vertexMapping v = rk s v
  degen_ub : ∀ v < g.length, ¬live s v → (s.ordering v).later.length ≤ s.degeneracy
  degen_wit : s.degeneracy = 0 ∨
    ∃ v, v < g.length ∧ ¬live s v ∧ (s.ordering v).later.length = s.degeneracy

/-- The intermediate invariant of the inner neighbour loop while removing `v`
from state `st`: `s` is the state after scanning the prefix `ps` of
`list[v]`. -/
structure ScanOk (g : Graph) (st : PeelState) (v : Nat) (ps : List Nat) (s : PeelState) :
    Prop where
  degv : s.degree v = -1
  degw : ∀ w, w ≠ v → s.degree w =
    if w ∈ ps ∧ st.degree w ≠ -1 then st.degree w - 1 else st.degree w
  num : s.numRemoved = st.numRemoved
  cur : s.currentDegree = st.currentDegree
  degen : s.degeneracy = max st.degeneracy st.currentDegree
  vmap : s.vertexMapping = upd st.vertexMapping v st.numRemoved
  ordw : ∀ w, w ≠ v → s.ordering w = st.ordering w
  ordv : s.ordering v =
    { vertex := v, orderNumber := st.numRemoved
      later := ps.filter fun u => decide (live st u)
      earlier := ps.filter fun u => decide (¬live st u) }
  bmem : ∀ d : Nat, ∀ w ∈ s.buckets d,
    w < g.length ∧ w ≠ v ∧ live s w ∧ s.degree w = (d : Int)
  bin : ∀ w < g.length, w ≠ v → live s w → w ∈ s.buckets (s.degree w).toNat
  bnodup : ∀ d : Nat, (s.buckets d).Nodup

/-- The states at the head of the peeling loop: the initial state and every
state produced from a reachable one by one loop iteration (a cursor skip over
an empty bucket, or a removal). -/
inductive Reach (g : Graph) : PeelState → Prop where
  | init : Reach g (initState g)
  | skip {st : PeelState} : Reach g st → st.numRemoved < g.length →
      st.currentDegree < g.length → st.buckets st.currentDegree = [] →
      Reach g { st with currentDegree := st.currentDegree + 1 }
  | remove {st : PeelState} {v : Nat} {rest : List Nat} : Reach g st →
      st.numRemoved < g.length → st.currentDegree < g.length →
      st.buckets st.currentDegree = v :: rest → Reach g (removeStep g st v)

/-- Termination measure for the peeling loop: each iteration strictly
decreases it. -/
def peelMeasure (g : Graph) (s : PeelState) : Nat :=
  (g.length - s.numRemoved) * (g.length + 1) + (g.length + 1 - s.currentDegree) + 1

/-- The maximum of the `laterDegree` fields over an ordering array
(0 for the empty graph). -/
def maxLaterDegree (arr : List NeighborListArray) : Nat :=
  arr.foldr (fun a m => max a.laterDegree m) 0

/-! ### Theorems about the basename computation -/

/-- A name without a dot is left unchanged by the truncation. -/
theorem stripLastExt_of_not_mem (s : List Char) (h : '.' ∉ s) :
    stripLastExt s = s := by
  induction s with
  | nil => rfl
  | cons c cs ih =>
    have hc : ¬(c = '.' ∧ '.' ∉ cs) := by
      rintro ⟨rfl, -⟩
      exact h (List.mem_cons_self _ _)
    have hcs : '.' ∉ cs := fun hm => h (List.mem_cons_of_mem _ hm)
    simp only [stripLastExt, if_neg hc, ih hcs]

/-- A name with a dot splits as the truncated name, the last dot, and a
dot-free extension. -/
theorem stripLastExt_spec (s : List Char) (h : '.' ∈ s) :
    ∃ ext, '.' ∉ ext ∧ s = stripLastExt s ++ '.' :: ext := by
  induction s with
  | nil => cases h
  | cons c cs ih =>
    by_cases hc : c = '.' ∧ '.' ∉ cs
    · obtain ⟨h1, h2⟩ := hc
      subst h1
      refine ⟨cs, h2, ?_⟩
      have hz : stripLastExt ('.' :: cs) = [] := by
        simp [stripLastExt, h2]
      rw [hz]
      rfl
    · have hcs : '.' ∈ cs := by
        rcases List.mem_cons.mp h with h1 | h1
        · by_contra hn
          exact hc ⟨h1.symm, hn⟩
        · exact h1
      obtain ⟨ext, hext, heq⟩ := ih hcs
      refine ⟨ext, hext, ?_⟩
      have hstep : stripLastExt (c :: cs) = c :: stripLastExt cs := by
        simp only [stripLastExt, if_neg hc]
      rw [hstep, List.cons_append]
      exact congrArg (c :: ·) heq

/-- C9: the basename used to name output files is the final filename
component of the input path with its final extension stripped: when the
basename contains a dot, `main` truncates it at the last dot (leaving a
dot-free extension behind the cut); when it contains no dot it is unchanged. -/
theorem main_basename_truncation (p : List Char) :
    ('.' ∉ cBasename p → mainOutputBasename p = cBasename p) ∧
    ('.' ∈ cBasename p →
      ∃ ext, '.' ∉ ext ∧ cBasename p = mainOutputBasename p ++ '.' :: ext) :=
  ⟨fun h => stripLastExt_of_not_mem _ h, fun h => stripLastExt_spec _ h⟩

/-- Witness: on the concrete path `data/graph.txt` the basename `graph.txt`
is truncated to `graph` with dot-free extension `txt`, and on `out/noext`
the basename is unchanged. -/
theorem main_basename_truncation_witness :
    (∃ ext, '.' ∉ ext ∧
      cBasename "data/graph.txt".toList =
        mainOutputBasename "data/graph.txt".toList ++ '.' :: ext) ∧
    mainOutputBasename "out/noext".toList = cBasename "out/noext".toList :=
  ⟨(main_basename_truncation _).2 (by decide),
   (main_basename_truncation _).1 (by decide)⟩

/-! ### Theorems about argument-error handling -/

/-- C8 fails on the code: `main` returns 0 on an invalid `-t` value, so the
exit code of an argument-error run is 0, not nonzero, and exit code 0 does
not occur only on success.  Concrete input:
`./degeneracy_cliques -i graph.txt -t X -k 0 -d 0 -o 0`. -/
theorem main_error_exit_code_zero :
    CmdResult.exitCode (mainModel (mkArgv "graph.txt" "X" "0" "0" "0")) = some 0 ∧
    headCharD "X" ≠ 'A' ∧ headCharD "X" ≠ 'V' ∧ headCharD "X" ≠ 'E' ∧
    mainModel (mkArgv "graph.txt" "X" "0" "0" "0") =
      CmdResult.exited 0 [typeErrLine] false := by decide

/-- One getopt iteration consuming `-i` and its argument. -/
theorem optLoop_i (f : String) (rest : List String) (ps : ArgState) :
    optLoop ("-i" :: f :: rest) ps = optLoop rest { ps with fpath := f } := rfl

/-- One getopt iteration consuming `-k` and its argument. -/
theorem optLoop_k (kk : String) (rest : List String) (ps : ArgState) :
    optLoop ("-k" :: kk :: rest) ps = optLoop rest { ps with maxK := atoi kk } := rfl

/-- One getopt iteration consuming `-t` and its argument. -/
theorem optLoop_t (tt : String) (rest : List String) (ps : ArgState) :
    optLoop ("-t" :: tt :: rest) ps =
      match applyOpt 't' tt ps with
      | .inl r => r
      | .inr ps2 => optLoop rest ps2 := rfl

/-- One getopt iteration consuming `-d` and its argument. -/
theorem optLoop_d (dd : String) (rest : List String) (ps : ArgState) :
    optLoop ("-d" :: dd :: rest) ps =
      match applyOpt 'd' dd ps with
      | .inl r => r
      | .inr ps2 => optLoop rest ps2 := rfl

/-- One getopt iteration consuming `-o` and its argument. -/
theorem optLoop_o (oo : String) (rest : List String) (ps : ArgState) :
    optLoop ("-o" :: oo :: rest) ps =
      match applyOpt 'o' oo ps with
      | .inl r => r
      | .inr ps2 => optLoop rest ps2 := rfl

/-- One getopt iteration on `-t` with an invalid type value: `printf` and
`return 0`. -/
theorem optLoop_t_invalid (tt : String) (rest : List String) (ps : ArgState)
    (h : headCharD tt ≠ 'A' ∧ headCharD tt ≠ 'V' ∧ headCharD tt ≠ 'E') :
    optLoop ("-t" :: tt :: rest) ps = .exited 0 [typeErrLine] false := by
  have ha : applyOpt 't' tt ps = .inl (.exited 0 [typeErrLine] false) := by
    unfold applyOpt
    rw [if_neg (by decide : ¬('t' : Char) = 'i'), if_pos rfl]
    simp only [if_pos h]
  rw [optLoop_t, ha]

/-- One getopt iteration on `-t` with a valid type value. -/
theorem optLoop_t_valid (tt : String) (rest : List String) (ps : ArgState)
    (h : ¬(headCharD tt ≠ 'A' ∧ headCharD tt ≠ 'V' ∧ headCharD tt ≠ 'E')) :
    optLoop ("-t" :: tt :: rest) ps = optLoop rest { ps with t := headCharD tt } := by
  have ha : applyOpt 't' tt ps = .inr { ps with t := headCharD tt } := by
    unfold applyOpt
    rw [if_neg (by decide : ¬('t' : Char) = 'i'), if_pos rfl]
    simp only [if_neg h]
  rw [optLoop_t, ha]

/-- One getopt iteration on `-d` with an out-of-range value: `printf` and
`return 0`. -/
theorem optLoop_d_invalid (dd : String) (rest : List String) (ps : ArgState)
    (h : atoi dd < 0 ∨ atoi dd > 2) :
    optLoop ("-d" :: dd :: rest) ps = .exited 0 [dErrLine] false := by
  have ha : applyOpt 'd' dd ps = .inl (.exited 0 [dErrLine] false) := by
    unfold applyOpt
    rw [if_neg (by decide : ¬('d' : Char) = 'i'), if_neg (by decide : ¬('d' : Char) = 't'),
      if_neg (by decide : ¬('d' : Char) = 'k'), if_pos rfl]
    simp only [if_pos h]
  rw [optLoop_d, ha]

/-- One getopt iteration on `-d` with an in-range value. -/
theorem optLoop_d_valid (dd : String) (rest : List String) (ps : ArgState)
    (h : ¬(atoi dd < 0 ∨ atoi dd > 2)) :
    optLoop ("-d" :: dd :: rest) ps = optLoop rest { ps with flagD := atoi dd } := by
  have ha : applyOpt 'd' dd ps = .inr { ps with flagD := atoi dd } := by
    unfold applyOpt
    rw [if_neg (by decide : ¬('d' : Char) = 'i'), if_neg (by decide : ¬('d' : Char) = 't'),
      if_neg (by decide : ¬('d' : Char) = 'k'), if_pos rfl]
    simp only [if_neg h]
  rw [optLoop_d, ha]

/-- One getopt iteration on `-o` with an out-of-range value: `printf` and
`return 0`. -/
theorem optLoop_o_invalid (oo : String) (rest : List String) (ps : ArgState)
    (h : atoi oo < 0 ∨ atoi oo > 1) :
    optLoop ("-o" :: oo :: rest) ps = .exited 0 [oErrLine] false := by
  have ha : applyOpt 'o' oo ps = .inl (.exited 0 [oErrLine] false) := by
    unfold applyOpt
    rw [if_neg (by decide : ¬('o' : Char) = 'i'), if_neg (by decide : ¬('o' : Char) = 't'),
      if_neg (by decide : ¬('o' : Char) = 'k'), if_neg (by decide : ¬('o' : Char) = 'd')]
    simp only [if_pos h]
  rw [optLoop_o, ha]

/-- C8 amended: on a wrong argument count `main` prints the multi-line usage
text, and on an invalid `-t`, out-of-range `-d` or out-of-range `-o` it
prints a one-line diagnostic; in each case it halts before the graph is
loaded — but it exits with code 0, the same exit code as a successful run. -/
theorem main_error_handling :
    (∀ argv : List String, argv.length ≠ 11 →
      mainModel argv = CmdResult.exited 0 usageLines false) ∧
    (∀ f tt kk dd oo,
      (headCharD tt ≠ 'A' ∧ headCharD tt ≠ 'V' ∧ headCharD tt ≠ 'E') →
      mainModel (mkArgv f tt kk dd oo) = CmdResult.exited 0 [typeErrLine] false) ∧
    (∀ f tt kk dd oo,
      ¬(headCharD tt ≠ 'A' ∧ headCharD tt ≠ 'V' ∧ headCharD tt ≠ 'E') →
      (atoi dd < 0 ∨ atoi dd > 2) →
      mainModel (mkArgv f tt kk dd oo) = CmdResult.exited 0 [dErrLine] false) ∧
    (∀ f tt kk dd oo,
      ¬(headCharD tt ≠ 'A' ∧ headCharD tt ≠ 'V' ∧ headCharD tt ≠ 'E') →
      ¬(atoi dd < 0 ∨ atoi dd > 2) →
      (atoi oo < 0 ∨ atoi oo > 1) →
      mainModel (mkArgv f tt kk dd oo) = CmdResult.exited 0 [oErrLine] false) := by
  refine ⟨fun argv h => by simp [mainModel, h], ?_, ?_, ?_⟩
  · intro f tt kk dd oo ht
    have h0 : mainModel (mkArgv f tt kk dd oo) =
        optLoop ["-i", f, "-t", tt, "-k", kk, "-d", dd, "-o", oo]
          { fpath := "", t := Char.ofNat 0, maxK := 0, flagD := 0, flagO := 0 } := by
      simp [mainModel, mkArgv]
    rw [h0, optLoop_i, optLoop_t_invalid _ _ _ ht]
  · intro f tt kk dd oo ht hd
    have h0 : mainModel (mkArgv f tt kk dd oo) =
        optLoop ["-i", f, "-t", tt, "-k", kk, "-d", dd, "-o", oo]
          { fpath := "", t := Char.ofNat 0, maxK := 0, flagD := 0, flagO := 0 } := by
      simp [mainModel, mkArgv]
    rw [h0, optLoop_i, optLoop_t_valid _ _ _ ht, optLoop_k, optLoop_d_invalid _ _ _ hd]
  · intro f tt kk dd oo ht hd ho
    have h0 : mainModel (mkArgv f tt kk dd oo) =
        optLoop ["-i", f, "-t", tt, "-k", kk, "-d", dd, "-o", oo]
          { fpath := "", t := Char.ofNat 0, maxK := 0, flagD := 0, flagO := 0 } := by
      simp [mainModel, mkArgv]
    rw [h0, optLoop_i, optLoop_t_valid _ _ _ ht, optLoop_k, optLoop_d_valid _ _ _ hd,
      optLoop_o_invalid _ _ _ ho]

/-- Witness: the amended behaviour at concrete invocations of each of the
four argument-error classes. -/
theorem main_error_handling_witness :
    mainModel ["./degeneracy_cliques"] = CmdResult.exited 0 usageLines false ∧
    mainModel (mkArgv "g" "Q" "0" "0" "0") = CmdResult.exited 0 [typeErrLine] false ∧
    mainModel (mkArgv "g" "A" "0" "7" "0") = CmdResult.exited 0 [dErrLine] false ∧
    mainModel (mkArgv "g" "A" "0" "1" "9") = CmdResult.exited 0 [oErrLine] false :=
  ⟨main_error_handling.1 _ (by decide),
   main_error_handling.2.1 _ _ _ _ _ (by decide),
   main_error_handling.2.2.1 _ _ _ _ _ (by decide) (by decide),
   main_error_handling.2.2.2 _ _ _ _ _ (by decide) (by decide) (by decide)⟩


/-! ### Small helpers -/

/-- Reading an updated array cell at the written index. -/
theorem upd_self {α : Type} (f : Nat → α) (i : Nat) (a : α) : upd f i a i = a := by
  simp [upd]

/-- Reading an updated array cell at another index. -/
theorem upd_ne {α : Type} (f : Nat → α) (i : Nat) (a : α) {j : Nat} (h : j ≠ i) :
    upd f i a j = f j := by
  simp [upd, h]

/-- Counting over a duplicate-free list after flipping the predicate from
true to false at exactly one member. -/
theorem countP_flip_one {α : Type} {l : List α} (hnd : l.Nodup)
    {p q : α → Bool} {v : α} (hv : v ∈ l) (hpv : p v = true) (hqv : q v = false)
    (hagree : ∀ u ∈ l, u ≠ v → p u = q u) :
    List.countP q l + 1 = List.countP p l := by
  induction l with
  | nil => cases hv
  | cons a l ih =>
    have hnd2 : l.Nodup := (List.nodup_cons.mp hnd).2
    have hna : a ∉ l := (List.nodup_cons.mp hnd).1
    rw [List.countP_cons, List.countP_cons]
    rcases List.mem_cons.mp hv with h1 | h1
    · subst h1
      rw [hpv, hqv]
      have hcongr : List.countP q l = List.countP p l := by
        apply List.countP_congr
        intro x hx
        rw [hagree x (List.mem_cons_of_mem _ hx) (fun he => hna (he ▸ hx))]
      simp [hcongr]
    · have ha : a ≠ v := fun he => hna (he ▸ h1)
      have hrec := ih hnd2 h1 (fun u hu hn => hagree u (List.mem_cons_of_mem _ hu) hn)
      rw [hagree a (List.mem_cons_self _ _) ha]
      omega

/-! ### The initial state -/

/-- Characterisation of the bucket-filling fold of the initialisation loop. -/
theorem foldl_addFirst_apply (g : Graph) (l : List Nat) (B : Nat → List Nat) (d : Nat) :
    (l.foldl (fun bs i => upd bs (nbrs g i).length (i :: bs (nbrs g i).length)) B) d
      = ((l.filter fun i => decide ((nbrs g i).length = d)).reverse) ++ B d := by
  induction l generalizing B with
  | nil => simp
  | cons i l ih =>
    rw [List.foldl_cons, ih]
    by_cases hd : (nbrs g i).length = d
    · subst hd
      rw [List.filter_cons_of_pos (by simp), upd_self]
      simp
    · rw [List.filter_cons_of_neg (by simp [hd]), upd_ne _ _ _ (fun he => hd he.symm)]

/-- Bucket `d` of the initial state holds exactly the vertices of initial
degree `d`, most recently inserted first. -/
theorem initState_buckets (g : Graph) (d : Nat) :
    (initState g).buckets d
      = ((List.range g.length).filter fun i => decide ((nbrs g i).length = d)).reverse := by
  rw [show (initState g).buckets
      = (List.range g.length).foldl
          (fun bs i => upd bs (nbrs g i).length (i :: bs (nbrs g i).length))
          (fun _ => []) from rfl,
    foldl_addFirst_apply]
  simp

/-- In a simple symmetric graph every adjacency list is shorter than the
number of vertices. -/
theorem nbrs_length_lt (g : Graph) (hg : SimpleSym g) {u : Nat} (hu : u < g.length) :
    (nbrs g u).length < g.length := by
  obtain ⟨hb, hnd, hself⟩ := hg.1 u hu
  have hcard : (nbrs g u).toFinset.card = (nbrs g u).length :=
    List.toFinset_card_of_nodup hnd
  have hsub : (nbrs g u).toFinset ⊆ (Finset.range g.length).erase u := by
    intro x hx
    have hx2 := List.mem_toFinset.mp hx
    exact Finset.mem_erase.mpr
      ⟨fun he => hself (he ▸ hx2), Finset.mem_range.mpr (hb x hx2)⟩
  have := Finset.card_le_card hsub
  rw [hcard, Finset.card_erase_of_mem (Finset.mem_range.mpr hu), Finset.card_range] at this
  omega

/-- Every vertex is live in the initial state. -/
theorem initState_live (g : Graph) (u : Nat) : live (initState g) u := by
  show ((nbrs g u).length : Int) ≠ -1
  omega

/-- The loop invariant holds on entry to the peeling loop. -/
theorem initState_inv (g : Graph) : PeelInv g (initState g) := by
  refine
    { deg_live := ?_, bucket_mem := ?_, mem_bucket := ?_, bucket_nodup := ?_
      rank_lt := ?_, rank_inj := ?_, dead_count := ?_, cursor := ?_
      live_lists := ?_, dead_later := ?_, dead_earlier := ?_, dead_vertex := ?_
      dead_vm := ?_, degen_ub := ?_, degen_wit := ?_ }
  · intro v hv _
    have hcnt : ((nbrs g v).countP fun u => decide (live (initState g) u))
        = (nbrs g v).length :=
      List.countP_eq_length.mpr fun u _ => by
        simp [initState_live g u]
    rw [hcnt]
    rfl
  · intro v hv _
    have hdeg : ((initState g).degree v).toNat = (nbrs g v).length := by
      show (((nbrs g v).length : Int)).toNat = (nbrs g v).length
      simp
    rw [hdeg, initState_buckets]
    simp [List.mem_filter, List.mem_range, hv]
  · intro d v hvmem
    rw [initState_buckets] at hvmem
    rw [List.mem_reverse, List.mem_filter, List.mem_range] at hvmem
    obtain ⟨hv, hd⟩ := hvmem
    refine ⟨hv, initState_live g v, ?_⟩
    have : (nbrs g v).length = d := by simpa using hd
    show ((nbrs g v).length : Int) = (d : Int)
    exact_mod_cast this
  · intro d
    rw [initState_buckets]
    exact List.nodup_reverse.mpr (List.Nodup.filter _ (List.nodup_range _))
  · intro v _ hdead
    exact absurd (initState_live g v) (by simpa using hdead)
  · intro v _ u _ hdead
    exact absurd (initState_live g v) (by simpa using hdead)
  · have : ∀ v ∈ List.range g.length, ¬(decide (¬live (initState g) v) = true) := by
      intro v _
      simp [initState_live g v]
    show List.countP _ _ = 0
    exact List.countP_eq_zero.mpr this
  · intro d hd
    exact absurd hd (Nat.not_lt_zero d)
  · intro v _ _
    exact ⟨rfl, rfl⟩
  · intro v _ hdead
    exact absurd (initState_live g v) (by simpa using hdead)
  · intro v _ hdead
    exact absurd (initState_live g v) (by simpa using hdead)
  · intro v _ hdead
    exact absurd (initState_live g v) (by simpa using hdead)
  · intro v _ hdead
    exact absurd (initState_live g v) (by simpa using hdead)
  · intro v _ hdead
    exact absurd (initState_live g v) (by simpa using hdead)
  · exact Or.inl rfl

/-! ### The removal step -/

/-- The vertex taken from the bucket head is in range, live, and has the
cursor's degree. -/
theorem remove_ctx {g : Graph} {st : PeelState} {v : Nat} {rest : List Nat}
    (inv : PeelInv g st) (hb : st.buckets st.currentDegree = v :: rest) :
    v < g.length ∧ live st v ∧ st.degree v = (st.currentDegree : Int) := by
  have hmem : v ∈ st.buckets st.currentDegree := by
    rw [hb]
    exact List.mem_cons_self _ _
  exact inv.mem_bucket _ _ hmem

/-! Per-field reductions of `processNeighbor` and `removeStepPre`. -/

/-- Fields untouched by the neighbour-loop body. -/
theorem pn_vm (s : PeelState) (v u : Nat) :
    (processNeighbor s v u).vertexMapping = s.vertexMapping := by
  unfold processNeighbor
  dsimp only
  split <;> rfl

theorem pn_degen (s : PeelState) (v u : Nat) :
    (processNeighbor s v u).degeneracy = s.degeneracy := by
  unfold processNeighbor
  dsimp only
  split <;> rfl

theorem pn_cur (s : PeelState) (v u : Nat) :
    (processNeighbor s v u).currentDegree = s.currentDegree := by
  unfold processNeighbor
  dsimp only
  split <;> rfl

theorem pn_num (s : PeelState) (v u : Nat) :
    (processNeighbor s v u).numRemoved = s.numRemoved := by
  unfold processNeighbor
  dsimp only
  split <;> rfl

theorem pnDead_buckets (s : PeelState) (v u : Nat) (h : s.degree u = -1) :
    (processNeighbor s v u).buckets = s.buckets := by
  unfold processNeighbor
  rw [if_neg (by omega : ¬s.degree u ≠ -1)]

theorem pnDead_degree (s : PeelState) (v u : Nat) (h : s.degree u = -1) :
    (processNeighbor s v u).degree = s.degree := by
  unfold processNeighbor
  rw [if_neg (by omega : ¬s.degree u ≠ -1)]

theorem pnDead_ordering (s : PeelState) (v u : Nat) (h : s.degree u = -1) :
    (processNeighbor s v u).ordering = upd s.ordering v
      ⟨(s.ordering v).vertex, (s.ordering v).orderNumber,
       (s.ordering v).later, (s.ordering v).earlier ++ [u]⟩ := by
  unfold processNeighbor
  rw [if_neg (by omega : ¬s.degree u ≠ -1)]

theorem pnLive_buckets (s : PeelState) (v u : Nat) (h1 : 1 ≤ s.degree u) :
    (processNeighbor s v u).buckets =
      upd (upd s.buckets (s.degree u).toNat ((s.buckets (s.degree u).toNat).erase u))
        (s.degree u - 1).toNat
        (u :: upd s.buckets (s.degree u).toNat ((s.buckets (s.degree u).toNat).erase u)
          (s.degree u - 1).toNat) := by
  unfold processNeighbor
  rw [if_pos (by omega : s.degree u ≠ -1)]
  dsimp only
  rw [if_pos (by omega : s.degree u - 1 ≠ -1)]

theorem pnLive_degree (s : PeelState) (v u : Nat) (h1 : 1 ≤ s.degree u) :
    (processNeighbor s v u).degree = upd s.degree u (s.degree u - 1) := by
  unfold processNeighbor
  rw [if_pos (by omega : s.degree u ≠ -1)]

theorem pnLive_ordering (s : PeelState) (v u : Nat) (h1 : 1 ≤ s.degree u) :
    (processNeighbor s v u).ordering = upd s.ordering v
      ⟨(s.ordering v).vertex, (s.ordering v).orderNumber,
       (s.ordering v).later ++ [u], (s.ordering v).earlier⟩ := by
  unfold processNeighbor
  rw [if_pos (by omega : s.degree u ≠ -1)]

theorem pre_buckets (st : PeelState) (v : Nat) :
    (removeStepPre st v).buckets
      = upd st.buckets st.currentDegree (st.buckets st.currentDegree).tail := rfl

theorem pre_degree (st : PeelState) (v : Nat) :
    (removeStepPre st v).degree = upd st.degree v (-1) := rfl

theorem pre_ordering (st : PeelState) (v : Nat) :
    (removeStepPre st v).ordering = upd st.ordering v
      ⟨v, st.numRemoved, (st.ordering v).later, (st.ordering v).earlier⟩ := rfl

theorem pre_misc (st : PeelState) (v : Nat) :
    (removeStepPre st v).vertexMapping = upd st.vertexMapping v st.numRemoved ∧
    (removeStepPre st v).degeneracy = max st.degeneracy st.currentDegree ∧
    (removeStepPre st v).currentDegree = st.currentDegree ∧
    (removeStepPre st v).numRemoved = st.numRemoved :=
  ⟨rfl, rfl, rfl, rfl⟩

/-- The scan invariant holds before the first neighbour is processed. -/
theorem scan_base {g : Graph} {st : PeelState} {v : Nat} {rest : List Nat}
    (inv : PeelInv g st) (hb : st.buckets st.currentDegree = v :: rest) :
    ScanOk g st v [] (removeStepPre st v) := by
  obtain ⟨hv, hlv, hdv⟩ := remove_ctx inv hb
  have htail : (st.buckets st.currentDegree).tail = rest := by rw [hb]; rfl
  have hvrest : v ∉ rest := by
    have := inv.bucket_nodup st.currentDegree
    rw [hb] at this
    exact (List.nodup_cons.mp this).1
  refine
    { degv := ?_
      degw := ?_, num := (pre_misc st v).2.2.2, cur := (pre_misc st v).2.2.1
      degen := (pre_misc st v).2.1, vmap := (pre_misc st v).1
      ordw := ?_, ordv := ?_, bmem := ?_, bin := ?_, bnodup := ?_ }
  · rw [pre_degree]
    exact upd_self _ _ _
  · intro w hw
    rw [pre_degree, if_neg (by simp : ¬(w ∈ ([] : List Nat) ∧ st.degree w ≠ -1))]
    exact upd_ne _ _ _ hw
  · intro w hw
    rw [pre_ordering]
    exact upd_ne _ _ _ hw
  · rw [pre_ordering, upd_self]
    have h1 := (inv.live_lists v hv hlv).1
    have h2 := (inv.live_lists v hv hlv).2
    simp [h1, h2]
  · intro d w hw
    rw [pre_buckets] at hw
    by_cases hd : d = st.currentDegree
    · rw [hd, upd_self, htail] at hw
      have hw2 : w ∈ st.buckets st.currentDegree := by
        rw [hb]
        exact List.mem_cons_of_mem _ hw
      obtain ⟨h1, h2, h3⟩ := inv.mem_bucket _ w hw2
      have hwv : w ≠ v := fun he => hvrest (he ▸ hw)
      refine ⟨h1, hwv, ?_, ?_⟩
      · show (removeStepPre st v).degree w ≠ -1
        rw [pre_degree, upd_ne _ _ _ hwv]
        exact h2
      · rw [pre_degree, upd_ne _ _ _ hwv, hd]
        exact h3
    · rw [upd_ne _ _ _ hd] at hw
      obtain ⟨h1, h2, h3⟩ := inv.mem_bucket d w hw
      have hwv : w ≠ v := by
        intro he
        rw [he, hdv] at h3
        exact hd (by exact_mod_cast h3.symm)
      refine ⟨h1, hwv, ?_, ?_⟩
      · show (removeStepPre st v).degree w ≠ -1
        rw [pre_degree, upd_ne _ _ _ hwv]
        exact h2
      · rw [pre_degree, upd_ne _ _ _ hwv]
        exact h3
  · intro w hwlt hwv hwl
    have hwd : (removeStepPre st v).degree w = st.degree w := by
      rw [pre_degree]
      exact upd_ne _ _ _ hwv
    have hwl2 : live st w := by
      show st.degree w ≠ -1
      rw [← hwd]
      exact hwl
    have hmem := inv.bucket_mem w hwlt hwl2
    rw [pre_buckets, hwd]
    by_cases hd : (st.degree w).toNat = st.currentDegree
    · rw [hd, upd_self, htail]
      rw [hd, hb] at hmem
      rcases List.mem_cons.mp hmem with h1 | h1
      · exact absurd h1 hwv
      · exact h1
    · rw [upd_ne _ _ _ hd]
      exact hmem
  · intro d
    rw [pre_buckets]
    by_cases hd : d = st.currentDegree
    · rw [hd, upd_self, htail]
      have hnd := inv.bucket_nodup st.currentDegree
      rw [hb] at hnd
      exact (List.nodup_cons.mp hnd).2
    · rw [upd_ne _ _ _ hd]
      exact inv.bucket_nodup d

/-- One iteration of the neighbour loop preserves the scan invariant. -/
theorem scan_step {g : Graph} (hg : SimpleSym g) {st : PeelState} (inv : PeelInv g st)
    {v : Nat} (hv : v < g.length) (hlv : live st v)
    {ps us : List Nat} {u : Nat} (hsplit : nbrs g v = ps ++ u :: us)
    {s : PeelState} (hs : ScanOk g st v ps s) :
    ScanOk g st v (ps ++ [u]) (processNeighbor s v u) := by
  have hndv : (nbrs g v).Nodup := (hg.1 v hv).2.1
  have hu_mem : u ∈ nbrs g v := by
    rw [hsplit]
    exact List.mem_append_right _ (List.mem_cons_self _ _)
  have hu_lt : u < g.length := (hg.1 v hv).1 u hu_mem
  have huv : u ≠ v := fun he => (hg.1 v hv).2.2 (he ▸ hu_mem)
  have hu_ps : u ∉ ps := by
    have hnd2 : (ps ++ u :: us).Nodup := hsplit ▸ hndv
    have hdisj := (List.nodup_append.mp hnd2).2.2
    intro hin
    exact hdisj hin (List.mem_cons_self _ _)
  have hdeg_u : s.degree u = st.degree u := by
    rw [hs.degw u huv, if_neg]
    rintro ⟨h1, -⟩
    exact hu_ps h1
  by_cases hld : st.degree u = -1
  · -- the neighbour is already dead: it goes to `v`'s earlier list
    have hsd : s.degree u = -1 := by rw [hdeg_u]; exact hld
    refine
      { degv := ?_, degw := ?_, num := ?_, cur := ?_, degen := ?_, vmap := ?_
        ordw := ?_, ordv := ?_, bmem := ?_, bin := ?_, bnodup := ?_ }
    · rw [pnDead_degree _ _ _ hsd]
      exact hs.degv
    · intro w hw
      rw [pnDead_degree _ _ _ hsd, hs.degw w hw]
      by_cases hwu : w = u
      · subst hwu
        rw [if_neg (fun h => h.2 hld), if_neg (fun h => h.2 hld)]
      · exact if_congr (by simp [hwu]) rfl rfl
    · rw [pn_num]
      exact hs.num
    · rw [pn_cur]
      exact hs.cur
    · rw [pn_degen]
      exact hs.degen
    · rw [pn_vm]
      exact hs.vmap
    · intro w hw
      rw [pnDead_ordering _ _ _ hsd, upd_ne _ _ _ hw]
      exact hs.ordw w hw
    · rw [pnDead_ordering _ _ _ hsd, upd_self, hs.ordv]
      simp [List.filter_append, hld]
    · intro d w hw
      rw [pnDead_buckets _ _ _ hsd] at hw
      obtain ⟨h1, h2, h3, h4⟩ := hs.bmem d w hw
      refine ⟨h1, h2, ?_, ?_⟩
      · show (processNeighbor s v u).degree w ≠ -1
        rw [pnDead_degree _ _ _ hsd]
        exact h3
      · rw [pnDead_degree _ _ _ hsd]
        exact h4
    · intro w h1 h2 h3
      rw [pnDead_buckets _ _ _ hsd, pnDead_degree _ _ _ hsd]
      refine hs.bin w h1 h2 ?_
      show s.degree w ≠ -1
      rw [← pnDead_degree s v u hsd]
      exact h3
    · intro d
      rw [pnDead_buckets _ _ _ hsd]
      exact hs.bnodup d
  · -- the neighbour is live: move it down one bucket, append to later
    have hvu : v ∈ nbrs g u := (hg.2 v hv u hu_lt).mp hu_mem
    have hdu_pos : 1 ≤ st.degree u := by
      have hpos : 0 < (nbrs g u).countP fun w => decide (live st w) :=
        List.countP_pos_iff.mpr ⟨v, hvu, by simpa using hlv⟩
      rw [inv.deg_live u hu_lt hld]
      exact_mod_cast hpos
    have hsu_pos : 1 ≤ s.degree u := by rw [hdeg_u]; exact hdu_pos
    have hd1 : (s.degree u - 1).toNat ≠ (s.degree u).toNat := by omega
    have hu_in : u ∈ s.buckets (s.degree u).toNat :=
      hs.bin u hu_lt huv (by show s.degree u ≠ -1; omega)
    refine
      { degv := ?_, degw := ?_, num := ?_, cur := ?_, degen := ?_, vmap := ?_
        ordw := ?_, ordv := ?_, bmem := ?_, bin := ?_, bnodup := ?_ }
    · rw [pnLive_degree _ _ _ hsu_pos, upd_ne _ _ _ (Ne.symm huv)]
      exact hs.degv
    · intro w hw
      rw [pnLive_degree _ _ _ hsu_pos]
      by_cases hwu : w = u
      · subst hwu
        rw [upd_self, if_pos ⟨by simp, hld⟩, hdeg_u]
      · rw [upd_ne _ _ _ hwu, hs.degw w hw]
        exact if_congr (by simp [hwu]) rfl rfl
    · rw [pn_num]
      exact hs.num
    · rw [pn_cur]
      exact hs.cur
    · rw [pn_degen]
      exact hs.degen
    · rw [pn_vm]
      exact hs.vmap
    · intro w hw
      rw [pnLive_ordering _ _ _ hsu_pos, upd_ne _ _ _ hw]
      exact hs.ordw w hw
    · rw [pnLive_ordering _ _ _ hsu_pos, upd_self, hs.ordv]
      simp [List.filter_append, hld]
    · intro d w hw
      rw [pnLive_buckets _ _ _ hsu_pos] at hw
      by_cases hda : d = (s.degree u - 1).toNat
      · rw [hda, upd_self, upd_ne _ _ _ hd1] at hw
        rcases List.mem_cons.mp hw with rfl | hw2
        · refine ⟨hu_lt, huv, ?_, ?_⟩
          · show (processNeighbor s v w).degree w ≠ -1
            rw [pnLive_degree _ _ _ hsu_pos, upd_self]
            omega
          · rw [pnLive_degree _ _ _ hsu_pos, upd_self, hda]
            omega
        · obtain ⟨h1, h2, h3, h4⟩ := hs.bmem _ w hw2
          have hwu : w ≠ u := by
            intro he
            rw [he] at h4
            omega
          refine ⟨h1, h2, ?_, ?_⟩
          · show (processNeighbor s v u).degree w ≠ -1
            rw [pnLive_degree _ _ _ hsu_pos, upd_ne _ _ _ hwu]
            exact h3
          · rw [pnLive_degree _ _ _ hsu_pos, upd_ne _ _ _ hwu, hda]
            exact h4
      · by_cases hdb : d = (s.degree u).toNat
        · rw [upd_ne _ _ _ hda, hdb, upd_self] at hw
          have hw2 := List.mem_of_mem_erase hw
          have hwu : w ≠ u := by
            intro he
            exact (hs.bnodup _).not_mem_erase (he ▸ hw)
          obtain ⟨h1, h2, h3, h4⟩ := hs.bmem _ w hw2
          refine ⟨h1, h2, ?_, ?_⟩
          · show (processNeighbor s v u).degree w ≠ -1
            rw [pnLive_degree _ _ _ hsu_pos, upd_ne _ _ _ hwu]
            exact h3
          · rw [pnLive_degree _ _ _ hsu_pos, upd_ne _ _ _ hwu, hdb]
            exact h4
        · rw [upd_ne _ _ _ hda, upd_ne _ _ _ hdb] at hw
          obtain ⟨h1, h2, h3, h4⟩ := hs.bmem d w hw
          have hwu : w ≠ u := by
            intro he
            rw [he] at h4
            have : (s.degree u).toNat = d := by omega
            exact hdb this.symm
          refine ⟨h1, h2, ?_, ?_⟩
          · show (processNeighbor s v u).degree w ≠ -1
            rw [pnLive_degree _ _ _ hsu_pos, upd_ne _ _ _ hwu]
            exact h3
          · rw [pnLive_degree _ _ _ hsu_pos, upd_ne _ _ _ hwu]
            exact h4
    · intro w hwlt hwv hwl
      by_cases hwu : w = u
      · subst hwu
        have hdg : (processNeighbor s v w).degree w = s.degree w - 1 := by
          rw [pnLive_degree _ _ _ hsu_pos]
          exact upd_self _ _ _
        rw [hdg, pnLive_buckets _ _ _ hsu_pos, upd_self]
        exact List.mem_cons_self _ _
      · have hdg : (processNeighbor s v u).degree w = s.degree w := by
          rw [pnLive_degree _ _ _ hsu_pos]
          exact upd_ne _ _ _ hwu
        have hwl2 : live s w := by
          show s.degree w ≠ -1
          rw [← hdg]
          exact hwl
        have hmem := hs.bin w hwlt hwv hwl2
        rw [hdg, pnLive_buckets _ _ _ hsu_pos]
        by_cases hda : (s.degree w).toNat = (s.degree u - 1).toNat
        · rw [hda, upd_self]
          refine List.mem_cons_of_mem _ ?_
          rw [upd_ne _ _ _ hd1, ← hda]
          exact hmem
        · rw [upd_ne _ _ _ hda]
          by_cases hdb : (s.degree w).toNat = (s.degree u).toNat
          · rw [hdb, upd_self]
            exact (List.mem_erase_of_ne hwu).mpr (hdb ▸ hmem)
          · rw [upd_ne _ _ _ hdb]
            exact hmem
    · intro d
      rw [pnLive_buckets _ _ _ hsu_pos]
      by_cases hda : d = (s.degree u - 1).toNat
      · rw [hda, upd_self]
        refine List.nodup_cons.mpr ⟨?_, ?_⟩
        · rw [upd_ne _ _ _ hd1]
          intro hu2
          obtain ⟨-, -, -, h4⟩ := hs.bmem _ u hu2
          omega
        · rw [upd_ne _ _ _ hd1]
          exact hs.bnodup _
      · rw [upd_ne _ _ _ hda]
        by_cases hdb : d = (s.degree u).toNat
        · rw [hdb, upd_self]
          exact (hs.bnodup _).erase _
        · rw [upd_ne _ _ _ hdb]
          exact hs.bnodup d

/-- Folding the neighbour loop over a suffix of `list[v]` preserves the scan
invariant. -/
theorem scan_fold {g : Graph} (hg : SimpleSym g) {st : PeelState} (inv : PeelInv g st)
    {v : Nat} (hv : v < g.length) (hlv : live st v) :
    ∀ (us ps : List Nat) (s : PeelState), nbrs g v = ps ++ us → ScanOk g st v ps s →
      ScanOk g st v (ps ++ us) (us.foldl (fun s u => processNeighbor s v u) s) := by
  intro us
  induction us with
  | nil =>
    intro ps s h hs
    simpa using hs
  | cons u us ih =>
    intro ps s h hs
    rw [List.foldl_cons]
    have h2 : nbrs g v = (ps ++ [u]) ++ us := by rw [h]; simp
    have hstep := scan_step hg inv hv hlv h hs
    have := ih (ps ++ [u]) _ h2 hstep
    simpa using this

/-- After a full removal (scan finished, counters updated), the loop
invariant holds again. -/
theorem post_inv {g : Graph} (hg : SimpleSym g) {st : PeelState} (inv : PeelInv g st)
    {v : Nat} {rest : List Nat} (hb : st.buckets st.currentDegree = v :: rest)
    {s2 : PeelState} (hscan : ScanOk g st v (nbrs g v) s2) :
    PeelInv g { s2 with numRemoved := st.numRemoved + 1, currentDegree := 0 } := by
  obtain ⟨hv, hlv, hdv⟩ := remove_ctx inv hb
  have hstep_ge : ∀ w, w < g.length → w ∈ nbrs g v → live st w → 1 ≤ st.degree w := by
    intro w hwlt hwm hlw
    have hvw : v ∈ nbrs g w := (hg.2 v hv w hwlt).mp hwm
    have hpos : 0 < (nbrs g w).countP fun x => decide (live st x) :=
      List.countP_pos_iff.mpr ⟨v, hvw, by simpa using hlv⟩
    rw [inv.deg_live w hwlt hlw]
    exact_mod_cast hpos
  have hdead_v : ¬live s2 v := fun h => h hscan.degv
  have hlive_iff : ∀ w, w ≠ v → w < g.length → (live s2 w ↔ live st w) := by
    intro w hwv hwlt
    constructor
    · intro h2
      have h3 : s2.degree w ≠ -1 := h2
      rw [hscan.degw w hwv] at h3
      by_contra hdead
      have h4 : st.degree w = -1 := not_not.mp (by simpa using hdead)
      rw [if_neg (fun hc => hc.2 h4)] at h3
      exact h3 h4
    · intro hlw
      show s2.degree w ≠ -1
      rw [hscan.degw w hwv]
      split
      · next hcond =>
          have := hstep_ge w hwlt hcond.1 hlw
          omega
      · exact hlw
  have hrk_off : ∀ w, w ≠ v → rk s2 w = rk st w := by
    intro w hwv
    show (s2.ordering w).orderNumber = (st.ordering w).orderNumber
    rw [hscan.ordw w hwv]
  have hrk_v : rk s2 v = st.numRemoved := by
    show (s2.ordering v).orderNumber = st.numRemoved
    rw [hscan.ordv]
  have hlatlen : ((nbrs g v).filter fun u => decide (live st u)).length
      = st.currentDegree := by
    have h1 := inv.deg_live v hv hlv
    rw [hdv] at h1
    have h2 : st.currentDegree = (nbrs g v).countP fun u => decide (live st u) := by
      exact_mod_cast h1
    rw [← List.countP_eq_length_filter]
    omega
  have hlater_v : (s2.ordering v).later = (nbrs g v).filter fun u => decide (live st u) := by
    rw [hscan.ordv]
  have hearlier_v : (s2.ordering v).earlier
      = (nbrs g v).filter fun u => decide (¬live st u) := by
    rw [hscan.ordv]
  refine
    { deg_live := ?_, bucket_mem := ?_, mem_bucket := ?_, bucket_nodup := ?_
      rank_lt := ?_, rank_inj := ?_, dead_count := ?_, cursor := ?_
      live_lists := ?_, dead_later := ?_, dead_earlier := ?_, dead_vertex := ?_
      dead_vm := ?_, degen_ub := ?_, degen_wit := ?_ }
  · -- deg_live
    intro w hwlt hlw2
    have hwv : w ≠ v := by
      intro he
      exact hdead_v (he ▸ hlw2)
    have hlw2s : live s2 w := hlw2
    have hlw : live st w := (hlive_iff w hwv hwlt).mp hlw2s
    have hagree : ∀ u ∈ nbrs g w, u ≠ v →
        (decide (live st u) : Bool) = decide (live s2 u) := by
      intro u hu huv
      have hu_lt : u < g.length := (hg.1 w hwlt).1 u hu
      simp [hlive_iff u huv hu_lt]
    show s2.degree w = ((nbrs g w).countP fun u => decide (live s2 u) : Nat)
    rw [hscan.degw w hwv]
    by_cases hwm : w ∈ nbrs g v
    · have hvw : v ∈ nbrs g w := (hg.2 v hv w hwlt).mp hwm
      have hflip := countP_flip_one (l := nbrs g w) (hg.1 w hwlt).2.1
        (p := fun u => decide (live st u)) (q := fun u => decide (live s2 u))
        (v := v) hvw (by simpa using hlv) (by simpa using hdead_v) hagree
      rw [if_pos ⟨hwm, hlw⟩, inv.deg_live w hwlt hlw]
      omega
    · have hvw : v ∉ nbrs g w := fun hc => hwm ((hg.2 v hv w hwlt).mpr hc)
      have hsame : ((nbrs g w).countP fun u => decide (live st u))
          = (nbrs g w).countP fun u => decide (live s2 u) := by
        apply List.countP_congr
        intro u hu
        have huv : u ≠ v := fun he => hvw (he ▸ hu)
        simp only [hagree u hu huv]
      rw [if_neg (fun hc => hwm hc.1), inv.deg_live w hwlt hlw, hsame]
  · -- bucket_mem
    intro w hwlt hlw2
    have hwv : w ≠ v := fun he => hdead_v (he ▸ hlw2)
    exact hscan.bin w hwlt hwv hlw2
  · -- mem_bucket
    intro d w hw
    obtain ⟨h1, h2, h3, h4⟩ := hscan.bmem d w hw
    exact ⟨h1, h3, h4⟩
  · -- bucket_nodup
    exact hscan.bnodup
  · -- rank_lt
    intro w hwlt hdw
    by_cases hwv : w = v
    · subst hwv
      show rk s2 w < st.numRemoved + 1
      rw [hrk_v]
      omega
    · have hdw2 : ¬live st w := fun hc => hdw ((hlive_iff w hwv hwlt).mpr hc)
      show rk s2 w < st.numRemoved + 1
      rw [hrk_off w hwv]
      have := inv.rank_lt w hwlt hdw2
      omega
  · -- rank_inj
    intro w hwlt u hult hdw hdu heq
    by_cases hwv : w = v <;> by_cases huv : u = v
    · rw [hwv, huv]
    · exfalso
      subst hwv
      have hdu2 : ¬live st u := fun hc => hdu ((hlive_iff u huv hult).mpr hc)
      have h1 := inv.rank_lt u hult hdu2
      rw [hrk_v, hrk_off u huv] at heq
      omega
    · exfalso
      subst huv
      have hdw2 : ¬live st w := fun hc => hdw ((hlive_iff w hwv hwlt).mpr hc)
      have h1 := inv.rank_lt w hwlt hdw2
      rw [hrk_v, hrk_off w hwv] at heq
      omega
    · have hdw2 : ¬live st w := fun hc => hdw ((hlive_iff w hwv hwlt).mpr hc)
      have hdu2 : ¬live st u := fun hc => hdu ((hlive_iff u huv hult).mpr hc)
      rw [hrk_off w hwv, hrk_off u huv] at heq
      exact inv.rank_inj w hwlt u hult hdw2 hdu2 heq
  · -- dead_count
    show ((List.range g.length).countP fun w => decide (¬live s2 w)) = st.numRemoved + 1
    have hflip := countP_flip_one (l := List.range g.length) (List.nodup_range _)
      (p := fun w => decide (¬live s2 w)) (q := fun w => decide (¬live st w))
      (v := v) (List.mem_range.mpr hv) (by simpa using hdead_v) (by simpa using hlv) ?_
    · rw [← hflip, inv.dead_count]
    · intro u hu huv
      have hult := List.mem_range.mp hu
      simp [hlive_iff u huv hult]
  · -- cursor
    intro d hd
    exact absurd hd (Nat.not_lt_zero d)
  · -- live_lists
    intro w hwlt hlw2
    have hwv : w ≠ v := fun he => hdead_v (he ▸ hlw2)
    have hlw : live st w := (hlive_iff w hwv hwlt).mp hlw2
    show (s2.ordering w).later = [] ∧ (s2.ordering w).earlier = []
    rw [hscan.ordw w hwv]
    exact inv.live_lists w hwlt hlw
  · -- dead_later
    intro w hwlt hdw
    by_cases hwv : w = v
    · subst hwv
      show (s2.ordering w).later
        = (nbrs g w).filter fun u => decide (live s2 u) || decide (rk s2 w < rk s2 u)
      rw [hlater_v]
      apply List.filter_congr
      intro u hu
      have hult : u < g.length := (hg.1 w hv).1 u hu
      have huw : u ≠ w := fun he => (hg.1 w hv).2.2 (he ▸ hu)
      by_cases hlu : live st u
      · have h1 : live s2 u := (hlive_iff u huw hult).mpr hlu
        simp [hlu, h1]
      · have h1 : ¬live s2 u := fun hc => hlu ((hlive_iff u huw hult).mp hc)
        have h2 := inv.rank_lt u hult hlu
        have h3 : ¬(rk s2 w < rk s2 u) := by
          rw [hrk_v, hrk_off u huw]
          omega
        simp [hlu, h1, h3]
    · have hdw2 : ¬live st w := fun hc => hdw ((hlive_iff w hwv hwlt).mpr hc)
      show (s2.ordering w).later
        = (nbrs g w).filter fun u => decide (live s2 u) || decide (rk s2 w < rk s2 u)
      rw [hscan.ordw w hwv, inv.dead_later w hwlt hdw2]
      apply List.filter_congr
      intro u hu
      have hult : u < g.length := (hg.1 w hwlt).1 u hu
      by_cases huv : u = v
      · subst huv
        have h2 := inv.rank_lt w hwlt hdw2
        have h3 : rk s2 w < rk s2 u := by
          rw [hrk_v, hrk_off w hwv]
          omega
        simp [hlv, hdead_v, h3]
      · have h4 : rk s2 u = rk st u := hrk_off u huv
        have h5 : rk s2 w = rk st w := hrk_off w hwv
        by_cases hlu : live st u
        · have h1 : live s2 u := (hlive_iff u huv hult).mpr hlu
          simp [hlu, h1]
        · have h1 : ¬live s2 u := fun hc => hlu ((hlive_iff u huv hult).mp hc)
          simp [hlu, h1, h4, h5]
  · -- dead_earlier
    intro w hwlt hdw
    by_cases hwv : w = v
    · subst hwv
      show (s2.ordering w).earlier
        = (nbrs g w).filter fun u => decide (¬live s2 u) && decide (rk s2 u < rk s2 w)
      rw [hearlier_v]
      apply List.filter_congr
      intro u hu
      have hult : u < g.length := (hg.1 w hv).1 u hu
      have huw : u ≠ w := fun he => (hg.1 w hv).2.2 (he ▸ hu)
      by_cases hlu : live st u
      · have h1 : live s2 u := (hlive_iff u huw hult).mpr hlu
        simp [hlu, h1]
      · have h1 : ¬live s2 u := fun hc => hlu ((hlive_iff u huw hult).mp hc)
        have h2 := inv.rank_lt u hult hlu
        have h3 : rk s2 u < rk s2 w := by
          rw [hrk_v, hrk_off u huw]
          omega
        simp [hlu, h1, h3]
    · have hdw2 : ¬live st w := fun hc => hdw ((hlive_iff w hwv hwlt).mpr hc)
      show (s2.ordering w).earlier
        = (nbrs g w).filter fun u => decide (¬live s2 u) && decide (rk s2 u < rk s2 w)
      rw [hscan.ordw w hwv, inv.dead_earlier w hwlt hdw2]
      apply List.filter_congr
      intro u hu
      have hult : u < g.length := (hg.1 w hwlt).1 u hu
      by_cases huv : u = v
      · subst huv
        have h2 := inv.rank_lt w hwlt hdw2
        have h3 : ¬(rk s2 u < rk s2 w) := by
          rw [hrk_v, hrk_off w hwv]
          omega
        simp [hlv, hdead_v, h3]
      · have h4 : rk s2 u = rk st u := hrk_off u huv
        have h5 : rk s2 w = rk st w := hrk_off w hwv
        by_cases hlu : live st u
        · have h1 : live s2 u := (hlive_iff u huv hult).mpr hlu
          simp [hlu, h1]
        · have h1 : ¬live s2 u := fun hc => hlu ((hlive_iff u huv hult).mp hc)
          simp [hlu, h1, h4, h5]
  · -- dead_vertex
    intro w hwlt hdw
    by_cases hwv : w = v
    · subst hwv
      show (s2.ordering w).vertex = w
      rw [hscan.ordv]
    · have hdw2 : ¬live st w := fun hc => hdw ((hlive_iff w hwv hwlt).mpr hc)
      show (s2.ordering w).vertex = w
      rw [hscan.ordw w hwv]
      exact inv.dead_vertex w hwlt hdw2
  · -- dead_vm
    intro w hwlt hdw
    by_cases hwv : w = v
    · subst hwv
      show s2.vertexMapping w = rk s2 w
      rw [hscan.vmap, upd_self, hrk_v]
    · have hdw2 : ¬live st w := fun hc => hdw ((hlive_iff w hwv hwlt).mpr hc)
      show s2.vertexMapping w = rk s2 w
      rw [hscan.vmap, upd_ne _ _ _ hwv, hrk_off w hwv]
      exact inv.dead_vm w hwlt hdw2
  · -- degen_ub
    intro w hwlt hdw
    show (s2.ordering w).later.length ≤ s2.degeneracy
    rw [hscan.degen]
    by_cases hwv : w = v
    · subst hwv
      rw [hlater_v, hlatlen]
      exact le_max_right _ _
    · have hdw2 : ¬live st w := fun hc => hdw ((hlive_iff w hwv hwlt).mpr hc)
      rw [hscan.ordw w hwv]
      exact le_trans (inv.degen_ub w hwlt hdw2) (le_max_left _ _)
  · -- degen_wit
    show _ ∨ ∃ w, w < g.length ∧ ¬live s2 w ∧ (s2.ordering w).later.length = s2.degeneracy
    rw [hscan.degen]
    by_cases hcmp : st.degeneracy ≤ st.currentDegree
    · right
      refine ⟨v, hv, hdead_v, ?_⟩
      rw [hlater_v, hlatlen]
      omega
    · right
      rcases inv.degen_wit with h0 | ⟨w, hwlt, hdw, heq⟩
      · omega
      · have hwv : w ≠ v := by
          intro he
          exact hdw (he ▸ hlv)
        refine ⟨w, hwlt, fun hc => hdw ((hlive_iff w hwv hwlt).mp hc), ?_⟩
        rw [hscan.ordw w hwv, heq]
        omega

/-- A full removal step preserves the invariant; the removed vertex gets the
current removal index as its rank, and its later list has exactly
`currentDegree` entries. -/
theorem remove_inv {g : Graph} (hg : SimpleSym g) {st : PeelState} (inv : PeelInv g st)
    {v : Nat} {rest : List Nat} (hb : st.buckets st.currentDegree = v :: rest) :
    PeelInv g (removeStep g st v) ∧
    (removeStep g st v).numRemoved = st.numRemoved + 1 ∧
    rk (removeStep g st v) v = st.numRemoved ∧
    ((removeStep g st v).ordering v).later.length = st.currentDegree := by
  obtain ⟨hv, hlv, hdv⟩ := remove_ctx inv hb
  have hscan : ScanOk g st v (nbrs g v)
      ((nbrs g v).foldl (fun s u => processNeighbor s v u) (removeStepPre st v)) := by
    have h0 := scan_fold hg inv hv hlv (nbrs g v) [] (removeStepPre st v) rfl
      (scan_base inv hb)
    simpa using h0
  have hlatlen : ((nbrs g v).filter fun u => decide (live st u)).length
      = st.currentDegree := by
    have h1 := inv.deg_live v hv hlv
    rw [hdv] at h1
    have h2 : st.currentDegree = (nbrs g v).countP fun u => decide (live st u) := by
      exact_mod_cast h1
    rw [← List.countP_eq_length_filter]
    omega
  refine ⟨post_inv hg inv hb hscan, rfl, ?_, ?_⟩
  · show (((nbrs g v).foldl (fun s u => processNeighbor s v u)
      (removeStepPre st v)).ordering v).orderNumber = st.numRemoved
    rw [hscan.ordv]
  · show (((nbrs g v).foldl (fun s u => processNeighbor s v u)
      (removeStepPre st v)).ordering v).later.length = st.currentDegree
    rw [hscan.ordv]
    exact hlatlen

/-- A cursor skip over an empty bucket preserves the invariant. -/
theorem skip_inv {g : Graph} {st : PeelState} (inv : PeelInv g st)
    (hemp : st.buckets st.currentDegree = []) :
    PeelInv g { st with currentDegree := st.currentDegree + 1 } := by
  refine
    { deg_live := inv.deg_live, bucket_mem := inv.bucket_mem
      mem_bucket := inv.mem_bucket, bucket_nodup := inv.bucket_nodup
      rank_lt := inv.rank_lt, rank_inj := inv.rank_inj, dead_count := inv.dead_count
      cursor := ?_, live_lists := inv.live_lists, dead_later := inv.dead_later
      dead_earlier := inv.dead_earlier, dead_vertex := inv.dead_vertex
      dead_vm := inv.dead_vm, degen_ub := inv.degen_ub, degen_wit := inv.degen_wit }
  intro d hd
  show st.buckets d = []
  have hd2 : d < st.currentDegree + 1 := hd
  rcases Nat.lt_succ_iff_lt_or_eq.mp hd2 with h | h
  · exact inv.cursor d h
  · rw [h]
    exact hemp

/-- While vertices remain, some live vertex exists. -/
theorem live_exists {g : Graph} {st : PeelState} (inv : PeelInv g st)
    (h : st.numRemoved < g.length) : ∃ u, u < g.length ∧ live st u := by
  by_contra hn
  push_neg at hn
  have hall : ((List.range g.length).countP fun v => decide (¬live st v))
      = (List.range g.length).length :=
    List.countP_eq_length.mpr fun a ha => by simp [hn a (List.mem_range.mp ha)]
  rw [inv.dead_count] at hall
  simp at hall
  omega

/-- While vertices remain, the cursor is below `size`, so the bucket access
`verticesByDegree[currentDegree]` is in bounds. -/
theorem cur_lt {g : Graph} (hg : SimpleSym g) {st : PeelState} (inv : PeelInv g st)
    (h : st.numRemoved < g.length) : st.currentDegree < g.length := by
  obtain ⟨u, hu, hlu⟩ := live_exists inv h
  have hdeg := inv.deg_live u hu hlu
  have hmem := inv.bucket_mem u hu hlu
  have hge : st.currentDegree ≤ (st.degree u).toNat := by
    by_contra hlt
    push_neg at hlt
    rw [inv.cursor _ hlt] at hmem
    exact absurd hmem (List.not_mem_nil u)
  have hlen := nbrs_length_lt g hg hu
  have hcnt : ((nbrs g u).countP fun w => decide (live st w)) ≤ (nbrs g u).length :=
    List.countP_le_length _
  omega

/-- With enough fuel, the peeling loop on an invariant-satisfying state
completes normally, removing every vertex. -/
theorem peel_total {g : Graph} (hg : SimpleSym g) :
    ∀ (fuel : Nat) (st : PeelState), PeelInv g st → peelMeasure g st ≤ fuel →
      ∃ stF, peelLoop g fuel st = some stF ∧ PeelInv g stF ∧
        stF.numRemoved = g.length := by
  intro fuel
  induction fuel with
  | zero =>
    intro st inv hm
    exfalso
    unfold peelMeasure at hm
    omega
  | succ fuel ih =>
    intro st inv hm
    simp only [peelLoop]
    by_cases hrem : st.numRemoved < g.length
    · have hcur := cur_lt hg inv hrem
      rw [if_pos hrem, if_pos hcur]
      cases hbu : st.buckets st.currentDegree with
      | nil =>
        have inv2 := skip_inv inv hbu
        have hmeas : peelMeasure g { st with currentDegree := st.currentDegree + 1 }
            ≤ fuel := by
          unfold peelMeasure at hm ⊢
          dsimp only
          generalize (g.length - st.numRemoved) * (g.length + 1) = X at hm ⊢
          omega
        exact ih _ inv2 hmeas
      | cons v rest =>
        obtain ⟨inv2, hnum, -, -⟩ := remove_inv hg inv hbu
        have hc0 : (removeStep g st v).currentDegree = 0 := rfl
        have hmeas : peelMeasure g (removeStep g st v) ≤ fuel := by
          unfold peelMeasure at hm ⊢
          rw [hnum, hc0]
          have hr : g.length - st.numRemoved = (g.length - (st.numRemoved + 1)) + 1 := by
            omega
          rw [hr, Nat.succ_mul] at hm
          generalize (g.length - (st.numRemoved + 1)) * (g.length + 1) = X at hm ⊢
          omega
        exact ih _ inv2 hmeas
    · rw [if_neg hrem]
      refine ⟨st, rfl, inv, ?_⟩
      have hle : st.numRemoved ≤ g.length := by
        have hdc := inv.dead_count
        have hc := List.countP_le_length (l := List.range g.length)
          (p := fun v => decide (¬live st v))
        rw [hdc] at hc
        simpa using hc
      omega

/-- The run from the initial state completes with every vertex removed and
the invariant holding in the final state. -/
theorem runPeel_spec (g : Graph) (hg : SimpleSym g) :
    ∃ stF, runPeel g = some stF ∧ PeelInv g stF ∧ stF.numRemoved = g.length := by
  apply peel_total hg (peelFuel g) (initState g) (initState_inv g)
  unfold peelMeasure peelFuel
  have he : (g.length + 1) * (g.length + 2)
      = g.length * (g.length + 1) + 2 * (g.length + 1) := by ring
  rw [he]
  have h0 : (initState g).numRemoved = 0 := rfl
  have h1 : (initState g).currentDegree = 0 := rfl
  rw [h0, h1]
  simp only [Nat.sub_zero]
  generalize g.length * (g.length + 1) = X
  omega

/-! ### The final state -/

/-- After the loop, every vertex has been removed. -/
theorem final_dead {g : Graph} {s : PeelState} (inv : PeelInv g s)
    (hfin : s.numRemoved = g.length) : ∀ v < g.length, ¬live s v := by
  have hall : ((List.range g.length).countP fun w => decide (¬live s w))
      = (List.range g.length).length := by
    rw [inv.dead_count, hfin]
    simp
  intro v hv
  have := List.countP_eq_length.mp hall v (List.mem_range.mpr hv)
  simpa using this

/-- Every final rank is below `size`. -/
theorem final_rk_lt {g : Graph} {s : PeelState} (inv : PeelInv g s)
    (hfin : s.numRemoved = g.length) : ∀ v < g.length, rk s v < g.length := by
  intro v hv
  have := inv.rank_lt v hv (final_dead inv hfin v hv)
  omega

/-- Final ranks are distinct. -/
theorem final_rk_inj {g : Graph} {s : PeelState} (inv : PeelInv g s)
    (hfin : s.numRemoved = g.length) :
    ∀ v < g.length, ∀ u < g.length, rk s v = rk s u → v = u := by
  intro v hv u hu
  exact inv.rank_inj v hv u hu (final_dead inv hfin v hv) (final_dead inv hfin u hu)

/-- In the final state, `later(v)` is exactly the neighbours of higher rank,
in adjacency order. -/
theorem final_later {g : Graph} (hg : SimpleSym g) {s : PeelState} (inv : PeelInv g s)
    (hfin : s.numRemoved = g.length) : ∀ v < g.length,
    (s.ordering v).later = (nbrs g v).filter fun u => decide (rk s v < rk s u) := by
  intro v hv
  rw [inv.dead_later v hv (final_dead inv hfin v hv)]
  apply List.filter_congr
  intro u hu
  have hult : u < g.length := (hg.1 v hv).1 u hu
  simp [final_dead inv hfin u hult]

/-- In the final state, `earlier(v)` is exactly the neighbours of lower rank,
in adjacency order. -/
theorem final_earlier {g : Graph} (hg : SimpleSym g) {s : PeelState} (inv : PeelInv g s)
    (hfin : s.numRemoved = g.length) : ∀ v < g.length,
    (s.ordering v).earlier = (nbrs g v).filter fun u => decide (rk s u < rk s v) := by
  intro v hv
  rw [inv.dead_earlier v hv (final_dead inv hfin v hv)]
  apply List.filter_congr
  intro u hu
  have hult : u < g.length := (hg.1 v hv).1 u hu
  simp [final_dead inv hfin u hult]

/-- The final ranks are a permutation of `[0, size)`. -/
theorem final_perm {g : Graph} {s : PeelState} (inv : PeelInv g s)
    (hfin : s.numRemoved = g.length) :
    ((List.range g.length).map fun v => rk s v).Perm (List.range g.length) := by
  have hnd : ((List.range g.length).map fun v => rk s v).Nodup :=
    List.Nodup.map_on
      (fun x hx y hy h => final_rk_inj inv hfin x (List.mem_range.mp hx)
        y (List.mem_range.mp hy) h)
      (List.nodup_range _)
  have hsub : ((List.range g.length).map fun v => rk s v).toFinset
      ⊆ (List.range g.length).toFinset := by
    intro x hx
    obtain ⟨v, hv, rfl⟩ := List.mem_map.mp (List.mem_toFinset.mp hx)
    exact List.mem_toFinset.mpr
      (List.mem_range.mpr (final_rk_lt inv hfin v (List.mem_range.mp hv)))
  have hcard : ((List.range g.length).map fun v => rk s v).toFinset.card
      = (List.range g.length).toFinset.card := by
    rw [List.toFinset_card_of_nodup hnd, List.toFinset_card_of_nodup (List.nodup_range _)]
    simp
  exact List.perm_of_nodup_nodup_toFinset_eq hnd (List.nodup_range _)
    (Finset.eq_of_subset_of_card_le hsub (le_of_eq hcard.symm))

/-- Every index below `size` is some vertex's final rank. -/
theorem final_rk_surj {g : Graph} {s : PeelState} (inv : PeelInv g s)
    (hfin : s.numRemoved = g.length) :
    ∀ i < g.length, ∃ v, v < g.length ∧ rk s v = i := by
  intro i hi
  have hmem : i ∈ (List.range g.length).map fun v => rk s v :=
    (final_perm inv hfin).mem_iff.mpr (List.mem_range.mpr hi)
  obtain ⟨v, hv, he⟩ := List.mem_map.mp hmem
  exact ⟨v, List.mem_range.mp hv, he⟩

/-- `getD` on a mapped range. -/
theorem getD_map_range {α : Type} (F : Nat → α) (dflt : α) {i n : Nat} (hi : i < n) :
    ((List.range n).map F).getD i dflt = F i := by
  rw [List.getD_eq_getElem?_getD, List.getElem?_map, List.getElem?_range hi]
  rfl

/-- `maxLaterDegree` is an upper bound iff every entry is bounded. -/
theorem maxLaterDegree_le {arr : List NeighborListArray} {D : Nat}
    (h : ∀ a ∈ arr, a.laterDegree ≤ D) : maxLaterDegree arr ≤ D := by
  induction arr with
  | nil => exact Nat.zero_le D
  | cons a arr ih =>
    show max a.laterDegree _ ≤ D
    exact max_le (h a (List.mem_cons_self _ _))
      (ih fun b hb => h b (List.mem_cons_of_mem _ hb))

/-- Each entry is at most `maxLaterDegree`. -/
theorem le_maxLaterDegree {arr : List NeighborListArray} {a : NeighborListArray}
    (h : a ∈ arr) : a.laterDegree ≤ maxLaterDegree arr := by
  induction arr with
  | nil => cases h
  | cons b arr ih =>
    show _ ≤ max b.laterDegree _
    rcases List.mem_cons.mp h with rfl | h2
    · exact le_max_left _ _
    · exact le_trans (ih h2) (le_max_right _ _)

/-! ### Claim theorems for the peeling module -/

/-- C10: on a simple symmetric input the peeling loop terminates normally
after exactly `size` removals; the bucket access stays in bounds (a run that
went out of bounds would be `none`), and both `computeDegeneracy` and
`computeDegeneracyOrderArray` return a result. -/
theorem peeling_terminates (g : Graph) (hg : SimpleSym g) :
    ∃ stF, runPeel g = some stF ∧ stF.numRemoved = g.length ∧
      (computeDegeneracy g).isSome ∧ (computeDegeneracyOrderArray g).isSome := by
  obtain ⟨stF, h1, _, h3⟩ := runPeel_spec g hg
  exact ⟨stF, h1, h3, by simp [computeDegeneracy, h1],
    by simp [computeDegeneracyOrderArray, h1]⟩

/-- Witness for C10 at the single-edge graph. -/
theorem peeling_terminates_witness :
    ∃ stF, runPeel [[1], [0]] = some stF ∧ stF.numRemoved = 2 ∧
      (computeDegeneracy [[1], [0]]).isSome ∧
      (computeDegeneracyOrderArray [[1], [0]]).isSome :=
  peeling_terminates [[1], [0]] (by decide)

/-- C1: the maximum `laterDegree` over the array returned by
`computeDegeneracyOrderArray` equals the degeneracy value returned by
`computeDegeneracy`, and in particular every `laterDegree` is at most that
degeneracy. -/
theorem max_laterDegree_eq_degeneracy (g : Graph) (hg : SimpleSym g) :
    ∃ arr d, computeDegeneracyOrderArray g = some arr ∧
      computeDegeneracy g = some d ∧ maxLaterDegree arr = d ∧
      ∀ a ∈ arr, a.laterDegree ≤ d := by
  obtain ⟨stF, h1, inv, hfin⟩ := runPeel_spec g hg
  have harr : computeDegeneracyOrderArray g
      = some ((List.range g.length).map fun i =>
        (⟨(stF.ordering i).vertex, (stF.ordering i).orderNumber,
          (stF.ordering i).later, (stF.ordering i).earlier⟩ : NeighborListArray)) := by
    simp [computeDegeneracyOrderArray, h1]
  have hdeg : computeDegeneracy g = some stF.degeneracy := by
    simp [computeDegeneracy, h1]
  refine ⟨_, _, harr, hdeg, ?_, ?_⟩
  case refine_2 =>
    intro a ha
    obtain ⟨i, hi, rfl⟩ := List.mem_map.mp ha
    exact inv.degen_ub i (List.mem_range.mp hi)
      (final_dead inv hfin i (List.mem_range.mp hi))
  case refine_1 =>
    have hub : ∀ a ∈ (List.range g.length).map fun i =>
        (⟨(stF.ordering i).vertex, (stF.ordering i).orderNumber,
          (stF.ordering i).later, (stF.ordering i).earlier⟩ : NeighborListArray),
        a.laterDegree ≤ stF.degeneracy := by
      intro a ha
      obtain ⟨i, hi, rfl⟩ := List.mem_map.mp ha
      exact inv.degen_ub i (List.mem_range.mp hi)
        (final_dead inv hfin i (List.mem_range.mp hi))
    refine le_antisymm (maxLaterDegree_le hub) ?_
    rcases inv.degen_wit with h0 | ⟨v, hv, hdead, heq⟩
    · rw [h0]
      exact Nat.zero_le _
    · have hmem : (⟨(stF.ordering v).vertex, (stF.ordering v).orderNumber,
          (stF.ordering v).later, (stF.ordering v).earlier⟩ : NeighborListArray)
          ∈ (List.range g.length).map fun i =>
          (⟨(stF.ordering i).vertex, (stF.ordering i).orderNumber,
            (stF.ordering i).later, (stF.ordering i).earlier⟩ : NeighborListArray) :=
        List.mem_map.mpr ⟨v, List.mem_range.mpr hv, rfl⟩
      have hle := le_maxLaterDegree hmem
      show stF.degeneracy ≤ _
      rw [← heq]
      exact hle

/-- Witness for C1 at the triangle graph. -/
theorem max_laterDegree_eq_degeneracy_witness :
    ∃ arr d, computeDegeneracyOrderArray [[1, 2], [0, 2], [0, 1]] = some arr ∧
      computeDegeneracy [[1, 2], [0, 2], [0, 1]] = some d ∧ maxLaterDegree arr = d ∧
      ∀ a ∈ arr, a.laterDegree ≤ d :=
  max_laterDegree_eq_degeneracy [[1, 2], [0, 2], [0, 1]] (by decide)

/-- C7: the `orderNumber` values assigned by `computeDegeneracyOrderArray`
form a permutation of `[0, size)`: each vertex receives a distinct rank equal
to its removal index, so the ordering is a total order on the vertices. -/
theorem orderNumbers_permutation (g : Graph) (hg : SimpleSym g) :
    ∃ arr, computeDegeneracyOrderArray g = some arr ∧
      ((arr.map fun a => a.orderNumber).Perm (List.range g.length)) ∧
      ∀ i < g.length, ∀ j < g.length,
        (arr.getD i default).orderNumber = (arr.getD j default).orderNumber → i = j := by
  obtain ⟨stF, h1, inv, hfin⟩ := runPeel_spec g hg
  have harr : computeDegeneracyOrderArray g
      = some ((List.range g.length).map fun i =>
        (⟨(stF.ordering i).vertex, (stF.ordering i).orderNumber,
          (stF.ordering i).later, (stF.ordering i).earlier⟩ : NeighborListArray)) := by
    simp [computeDegeneracyOrderArray, h1]
  refine ⟨_, harr, ?_, ?_⟩
  · have hmm : (((List.range g.length).map fun i =>
        (⟨(stF.ordering i).vertex, (stF.ordering i).orderNumber,
          (stF.ordering i).later, (stF.ordering i).earlier⟩
          : NeighborListArray)).map fun a => a.orderNumber)
        = (List.range g.length).map fun v => rk stF v := by
      rw [List.map_map]
      rfl
    rw [hmm]
    exact final_perm inv hfin
  · intro i hi j hj he
    rw [getD_map_range _ _ hi, getD_map_range _ _ hj] at he
    exact final_rk_inj inv hfin i hi j hj he

/-- Witness for C7 at the triangle graph. -/
theorem orderNumbers_permutation_witness :
    ∃ arr, computeDegeneracyOrderArray [[1, 2], [0, 2], [0, 1]] = some arr ∧
      ((arr.map fun a => a.orderNumber).Perm (List.range 3)) ∧
      ∀ i < 3, ∀ j < 3,
        (arr.getD i default).orderNumber = (arr.getD j default).orderNumber → i = j :=
  orderNumbers_permutation [[1, 2], [0, 2], [0, 1]] (by decide)

/-- C3: for every edge `(u,v)`, exactly one of `u ∈ later(v)` and
`v ∈ later(u)` holds, and the opposite direction's `earlier` list holds the
counterpart. -/
theorem later_earlier_edge_partition (g : Graph) (hg : SimpleSym g) :
    ∃ arr, computeDegeneracyOrderArray g = some arr ∧
      ∀ v < g.length, ∀ u ∈ nbrs g v,
        Xor' (u ∈ (arr.getD v default).later) (v ∈ (arr.getD u default).later) ∧
        (u ∈ (arr.getD v default).later → v ∈ (arr.getD u default).earlier) ∧
        (v ∈ (arr.getD u default).later → u ∈ (arr.getD v default).earlier) := by
  obtain ⟨stF, h1, inv, hfin⟩ := runPeel_spec g hg
  have harr : computeDegeneracyOrderArray g
      = some ((List.range g.length).map fun i =>
        (⟨(stF.ordering i).vertex, (stF.ordering i).orderNumber,
          (stF.ordering i).later, (stF.ordering i).earlier⟩ : NeighborListArray)) := by
    simp [computeDegeneracyOrderArray, h1]
  refine ⟨_, harr, ?_⟩
  intro v hv u hu
  have hult : u < g.length := (hg.1 v hv).1 u hu
  have hvnu : v ∈ nbrs g u := (hg.2 v hv u hult).mp hu
  have huv : u ≠ v := fun he => (hg.1 v hv).2.2 (he ▸ hu)
  have hrne : rk stF v ≠ rk stF u :=
    fun he => huv (final_rk_inj inv hfin v hv u hult he).symm
  have hlatv : (((List.range g.length).map fun i =>
      (⟨(stF.ordering i).vertex, (stF.ordering i).orderNumber,
        (stF.ordering i).later, (stF.ordering i).earlier⟩
        : NeighborListArray)).getD v default).later
      = (nbrs g v).filter fun w => decide (rk stF v < rk stF w) := by
    rw [getD_map_range _ _ hv]
    exact final_later hg inv hfin v hv
  have hlatu : (((List.range g.length).map fun i =>
      (⟨(stF.ordering i).vertex, (stF.ordering i).orderNumber,
        (stF.ordering i).later, (stF.ordering i).earlier⟩
        : NeighborListArray)).getD u default).later
      = (nbrs g u).filter fun w => decide (rk stF u < rk stF w) := by
    rw [getD_map_range _ _ hult]
    exact final_later hg inv hfin u hult
  have hearlv : (((List.range g.length).map fun i =>
      (⟨(stF.ordering i).vertex, (stF.ordering i).orderNumber,
        (stF.ordering i).later, (stF.ordering i).earlier⟩
        : NeighborListArray)).getD v default).earlier
      = (nbrs g v).filter fun w => decide (rk stF w < rk stF v) := by
    rw [getD_map_range _ _ hv]
    exact final_earlier hg inv hfin v hv
  have hearlu : (((List.range g.length).map fun i =>
      (⟨(stF.ordering i).vertex, (stF.ordering i).orderNumber,
        (stF.ordering i).later, (stF.ordering i).earlier⟩
        : NeighborListArray)).getD u default).earlier
      = (nbrs g u).filter fun w => decide (rk stF w < rk stF u) := by
    rw [getD_map_range _ _ hult]
    exact final_earlier hg inv hfin u hult
  have h2 : (u ∈ (((List.range g.length).map fun i =>
      (⟨(stF.ordering i).vertex, (stF.ordering i).orderNumber,
        (stF.ordering i).later, (stF.ordering i).earlier⟩
        : NeighborListArray)).getD v default).later) ↔ rk stF v < rk stF u := by
    rw [hlatv, List.mem_filter]
    simp [hu]
  have h3 : (v ∈ (((List.range g.length).map fun i =>
      (⟨(stF.ordering i).vertex, (stF.ordering i).orderNumber,
        (stF.ordering i).later, (stF.ordering i).earlier⟩
        : NeighborListArray)).getD u default).later) ↔ rk stF u < rk stF v := by
    rw [hlatu, List.mem_filter]
    simp [hvnu]
  have h4 : (v ∈ (((List.range g.length).map fun i =>
      (⟨(stF.ordering i).vertex, (stF.ordering i).orderNumber,
        (stF.ordering i).later, (stF.ordering i).earlier⟩
        : NeighborListArray)).getD u default).earlier) ↔ rk stF v < rk stF u := by
    rw [hearlu, List.mem_filter]
    simp [hvnu]
  have h5 : (u ∈ (((List.range g.length).map fun i =>
      (⟨(stF.ordering i).vertex, (stF.ordering i).orderNumber,
        (stF.ordering i).later, (stF.ordering i).earlier⟩
        : NeighborListArray)).getD v default).earlier) ↔ rk stF u < rk stF v := by
    rw [hearlv, List.mem_filter]
    simp [hu]
  refine ⟨?_, fun h => h4.mpr (h2.mp h), fun h => h5.mpr (h3.mp h)⟩
  rcases Nat.lt_trichotomy (rk stF v) (rk stF u) with hlt | he | hgt
  · exact Or.inl ⟨h2.mpr hlt, fun hc => absurd (h3.mp hc) (by omega)⟩
  · exact absurd he hrne
  · exact Or.inr ⟨h3.mpr hgt, fun hc => absurd (h2.mp hc) (by omega)⟩

/-- Witness for C3 at the triangle graph. -/
theorem later_earlier_edge_partition_witness :
    ∃ arr, computeDegeneracyOrderArray [[1, 2], [0, 2], [0, 1]] = some arr ∧
      ∀ v < 3, ∀ u ∈ nbrs [[1, 2], [0, 2], [0, 1]] v,
        Xor' (u ∈ (arr.getD v default).later) (v ∈ (arr.getD u default).later) ∧
        (u ∈ (arr.getD v default).later → v ∈ (arr.getD u default).earlier) ∧
        (v ∈ (arr.getD u default).later → u ∈ (arr.getD v default).earlier) :=
  later_earlier_edge_partition [[1, 2], [0, 2], [0, 1]] (by decide)

/-- Sum of a function over `List.range` as a `Finset` sum. -/
theorem sum_map_range (n : Nat) (f : Nat → Nat) :
    ((List.range n).map f).sum = ∑ i ∈ Finset.range n, f i := by
  induction n with
  | zero => simp
  | succ m ih =>
    rw [List.range_succ, Finset.sum_range_succ, List.map_append, List.sum_append, ih]
    simp

/-- Counting two complementary predicates over a list. -/
theorem countP_split {α : Type} {l : List α} {p q : α → Bool}
    (h : ∀ a ∈ l, (p a = true ↔ ¬q a = true)) :
    l.countP p + l.countP q = l.length := by
  induction l with
  | nil => rfl
  | cons a l ih =>
    rw [List.countP_cons, List.countP_cons]
    have ha := h a (List.mem_cons_self _ _)
    have ihh := ih fun b hb => h b (List.mem_cons_of_mem _ hb)
    by_cases hpa : p a = true
    · have hqa : ¬q a = true := ha.mp hpa
      rw [if_pos hpa, if_neg hqa]
      simp only [List.length_cons]
      omega
    · have hqa : q a = true := by
        by_contra hq
        exact hpa (ha.mpr hq)
      rw [if_neg hpa, if_pos hqa]
      simp only [List.length_cons]
      omega

/-- The input's total adjacency length as an indexed sum. -/
theorem sum_adj_lengths (g : Graph) :
    (g.map List.length).sum = ∑ v ∈ Finset.range g.length, (nbrs g v).length := by
  rw [← sum_map_range]
  congr 1
  apply List.ext_getElem
  · simp
  · intro i h1 h2
    simp only [List.getElem_map, List.getElem_range, nbrs]
    rw [List.getD_eq_getElem?_getD]
    rw [List.getElem?_eq_getElem (by simpa using h1)]
    rfl

/-- C6: twice the sum of `laterDegree` over the output of
`computeDegeneracyOrderArray` equals the total adjacency-list length, i.e.
the sum of `laterDegree` is the number `|E|` of undirected edges. -/
theorem sum_laterDegree_eq_edges (g : Graph) (hg : SimpleSym g) :
    ∃ arr, computeDegeneracyOrderArray g = some arr ∧
      2 * (arr.map NeighborListArray.laterDegree).sum = (g.map List.length).sum := by
  obtain ⟨stF, h1, inv, hfin⟩ := runPeel_spec g hg
  have harr : computeDegeneracyOrderArray g
      = some ((List.range g.length).map fun i =>
        (⟨(stF.ordering i).vertex, (stF.ordering i).orderNumber,
          (stF.ordering i).later, (stF.ordering i).earlier⟩ : NeighborListArray)) := by
    simp [computeDegeneracyOrderArray, h1]
  refine ⟨_, harr, ?_⟩
  have hmapL : (((List.range g.length).map fun i =>
      (⟨(stF.ordering i).vertex, (stF.ordering i).orderNumber,
        (stF.ordering i).later, (stF.ordering i).earlier⟩
        : NeighborListArray)).map NeighborListArray.laterDegree).sum
      = ∑ v ∈ Finset.range g.length,
          ((nbrs g v).filter fun u => decide (rk stF v < rk stF u)).length := by
    rw [List.map_map]
    have hcong : ((List.range g.length).map
        (NeighborListArray.laterDegree ∘ fun i =>
          (⟨(stF.ordering i).vertex, (stF.ordering i).orderNumber,
            (stF.ordering i).later, (stF.ordering i).earlier⟩ : NeighborListArray)))
        = (List.range g.length).map fun v =>
            ((nbrs g v).filter fun u => decide (rk stF v < rk stF u)).length :=
      List.map_congr_left fun v hv => by
        show (stF.ordering v).later.length = _
        rw [final_later hg inv hfin v (List.mem_range.mp hv)]
    rw [hcong, sum_map_range]
  have hLE : (∑ v ∈ Finset.range g.length,
        ((nbrs g v).filter fun u => decide (rk stF v < rk stF u)).length)
      = ∑ v ∈ Finset.range g.length,
        ((nbrs g v).filter fun u => decide (rk stF u < rk stF v)).length := by
    have hc1 : (∑ v ∈ Finset.range g.length,
        ((nbrs g v).filter fun u => decide (rk stF v < rk stF u)).length)
        = ((Finset.range g.length).sigma fun v =>
            ((nbrs g v).filter fun u => decide (rk stF v < rk stF u)).toFinset).card := by
      rw [Finset.card_sigma]
      refine Finset.sum_congr rfl fun v hv => ?_
      rw [List.toFinset_card_of_nodup
        (List.Nodup.filter _ (hg.1 v (Finset.mem_range.mp hv)).2.1)]
    have hc2 : (∑ v ∈ Finset.range g.length,
        ((nbrs g v).filter fun u => decide (rk stF u < rk stF v)).length)
        = ((Finset.range g.length).sigma fun v =>
            ((nbrs g v).filter fun u => decide (rk stF u < rk stF v)).toFinset).card := by
      rw [Finset.card_sigma]
      refine Finset.sum_congr rfl fun v hv => ?_
      rw [List.toFinset_card_of_nodup
        (List.Nodup.filter _ (hg.1 v (Finset.mem_range.mp hv)).2.1)]
    rw [hc1, hc2]
    apply Finset.card_bij fun (a : (_ : ℕ) × ℕ) _ => (⟨a.2, a.1⟩ : (_ : ℕ) × ℕ)
    · intro a ha
      rw [Finset.mem_sigma] at ha ⊢
      obtain ⟨h1a, h2a⟩ := ha
      rw [List.mem_toFinset, List.mem_filter] at h2a
      obtain ⟨hmem, hlt⟩ := h2a
      have hva : a.1 < g.length := Finset.mem_range.mp h1a
      have hua : a.2 < g.length := (hg.1 a.1 hva).1 a.2 hmem
      refine ⟨Finset.mem_range.mpr hua, ?_⟩
      rw [List.mem_toFinset, List.mem_filter]
      exact ⟨(hg.2 a.1 hva a.2 hua).mp hmem, by simpa using hlt⟩
    · intro a _ b _ heq
      obtain ⟨a1, a2⟩ := a
      obtain ⟨b1, b2⟩ := b
      cases heq
      rfl
    · intro b hb
      refine ⟨⟨b.2, b.1⟩, ?_, ?_⟩
      · rw [Finset.mem_sigma] at hb ⊢
        obtain ⟨h1b, h2b⟩ := hb
        rw [List.mem_toFinset, List.mem_filter] at h2b
        obtain ⟨hmem, hlt⟩ := h2b
        have hvb : b.1 < g.length := Finset.mem_range.mp h1b
        have hub : b.2 < g.length := (hg.1 b.1 hvb).1 b.2 hmem
        refine ⟨Finset.mem_range.mpr hub, ?_⟩
        rw [List.mem_toFinset, List.mem_filter]
        exact ⟨(hg.2 b.1 hvb b.2 hub).mp hmem, by simpa using hlt⟩
      · obtain ⟨b1, b2⟩ := b
        rfl
  have hsplit : ∀ v ∈ Finset.range g.length,
      ((nbrs g v).filter fun u => decide (rk stF v < rk stF u)).length
      + ((nbrs g v).filter fun u => decide (rk stF u < rk stF v)).length
      = (nbrs g v).length := by
    intro v hv
    have hvlt := Finset.mem_range.mp hv
    rw [← List.countP_eq_length_filter, ← List.countP_eq_length_filter]
    apply countP_split
    intro u hu
    have hult : u < g.length := (hg.1 v hvlt).1 u hu
    have huv : u ≠ v := fun he => (hg.1 v hvlt).2.2 (he ▸ hu)
    have hne : rk stF v ≠ rk stF u :=
      fun he => huv (final_rk_inj inv hfin v hvlt u hult he).symm
    simp only [decide_eq_true_eq]
    omega
  rw [hmapL, sum_adj_lengths, two_mul]
  nth_rewrite 2 [hLE]
  rw [← Finset.sum_add_distrib]
  exact Finset.sum_congr rfl hsplit

/-- Witness for C6 at the triangle graph. -/
theorem sum_laterDegree_eq_edges_witness :
    ∃ arr, computeDegeneracyOrderArray [[1, 2], [0, 2], [0, 1]] = some arr ∧
      2 * (arr.map NeighborListArray.laterDegree).sum
        = ([[1, 2], [0, 2], [0, 1]].map List.length).sum :=
  sum_laterDegree_eq_edges [[1, 2], [0, 2], [0, 1]] (by decide)

/-- Every state at the head of the peeling loop satisfies the invariant. -/
theorem reach_inv {g : Graph} (hg : SimpleSym g) {st : PeelState} (hr : Reach g st) :
    PeelInv g st := by
  induction hr with
  | init => exact initState_inv g
  | skip hr hnum hcur hemp ih => exact skip_inv ih hemp
  | remove hr hnum hcur hb ih => exact (remove_inv hg ih hb).1

/-- C2: whenever the peeling loop removes a vertex `v` (the head of
`verticesByDegree[currentDegree]` in a reachable loop state), `v` has the
cursor's degree, which is minimal among all still-live vertices; `v`'s
`orderNumber` is set to the current removal index; and every bucket below the
cursor is empty (the cursor was advanced only past empty buckets), so the
cursor locates a minimum-degree vertex. -/
theorem min_degree_removal (g : Graph) (hg : SimpleSym g) {st : PeelState}
    (hr : Reach g st) {v : Nat} {rest : List Nat}
    (hb : st.buckets st.currentDegree = v :: rest) :
    st.degree v = (st.currentDegree : Int) ∧
    (∀ u < g.length, live st u → st.degree v ≤ st.degree u) ∧
    rk (removeStep g st v) v = st.numRemoved ∧
    (∀ d < st.currentDegree, st.buckets d = []) := by
  have inv := reach_inv hg hr
  obtain ⟨hv, hlv, hdv⟩ := remove_ctx inv hb
  refine ⟨hdv, ?_, (remove_inv hg inv hb).2.2.1, inv.cursor⟩
  intro u hu hlu
  have hmem := inv.bucket_mem u hu hlu
  have hge : st.currentDegree ≤ (st.degree u).toNat := by
    by_contra hlt
    push_neg at hlt
    rw [inv.cursor _ hlt] at hmem
    exact absurd hmem (List.not_mem_nil u)
  have hnn : 0 ≤ st.degree u := by
    have := inv.deg_live u hu hlu
    omega
  rw [hdv]
  omega

/-- Witness for C2: the initial state of the two-vertex edgeless graph, with
vertex 1 at the head of bucket 0. -/
theorem min_degree_removal_witness :
    (initState [[], []]).degree 1 = ((initState [[], []]).currentDegree : Int) ∧
    (∀ u < ([[], []] : Graph).length, live (initState [[], []]) u →
      (initState [[], []]).degree 1 ≤ (initState [[], []]).degree u) ∧
    rk (removeStep [[], []] (initState [[], []]) 1) 1
      = (initState [[], []]).numRemoved ∧
    (∀ d < (initState [[], []]).currentDegree, (initState [[], []]).buckets d = []) :=
  @min_degree_removal [[], []] (by decide) (initState [[], []]) Reach.init 1 [0] (by decide)

/-! ### The renamed/sorted variant -/

/-- A fold of array stores writes nothing at an index none of the keys hit. -/
theorem foldl_upd_notin {α : Type} (f : Nat → Nat) (rec : Nat → α) :
    ∀ (l : List Nat) (A : Nat → α) (i : Nat), (∀ v ∈ l, f v ≠ i) →
      (l.foldl (fun a v => upd a (f v) (rec v)) A) i = A i := by
  intro l
  induction l with
  | nil =>
    intro A i h
    rfl
  | cons x l ih =>
    intro A i h
    rw [List.foldl_cons, ih _ _ fun v hv => h v (List.mem_cons_of_mem _ hv)]
    exact upd_ne _ _ _ fun he => h x (List.mem_cons_self _ _) he.symm

/-- A fold of array stores over distinct keys: the cell of key `i` holds the
record of the unique list element mapping to `i`. -/
theorem foldl_upd_hit {α : Type} (f : Nat → Nat) (rec : Nat → α) :
    ∀ (l : List Nat) (A : Nat → α) {i v : Nat}, l.Nodup → v ∈ l → f v = i →
      (∀ w ∈ l, f w = i → w = v) →
      (l.foldl (fun a v => upd a (f v) (rec v)) A) i = rec v := by
  intro l
  induction l with
  | nil =>
    intro A i v _ hv
    cases hv
  | cons x l ih =>
    intro A i v hnd hv hfv huniq
    rw [List.foldl_cons]
    by_cases hxv : x = v
    · subst hxv
      have hnotin : ∀ w ∈ l, f w ≠ i := by
        intro w hw he
        have hwx := huniq w (List.mem_cons_of_mem _ hw) he
        exact (List.nodup_cons.mp hnd).1 (hwx ▸ hw)
      rw [foldl_upd_notin f rec l _ i hnotin, ← hfv]
      exact upd_self _ _ _
    · have hvl : v ∈ l := by
        rcases List.mem_cons.mp hv with h | h
        · exact absurd h.symm hxv
        · exact h
      exact ih _ (List.nodup_cons.mp hnd).2 hvl hfv
        fun w hw he => huniq w (List.mem_cons_of_mem _ hw) he

/-- `qsort` with the ascending int comparator sorts ascending. -/
theorem sortNat_sorted (l : List Nat) : List.Sorted (· ≤ ·) (sortNat l) :=
  List.sorted_mergeSort' l

/-- Sorting permutes the input. -/
theorem sortNat_perm (l : List Nat) : (sortNat l).Perm l :=
  List.mergeSort_perm l _

/-- Sorting preserves membership. -/
theorem mem_sortNat {x : Nat} {l : List Nat} : x ∈ sortNat l ↔ x ∈ l :=
  List.mem_mergeSort

/-- C4: in the array returned by `computeDegeneracyOrderArrayVerticesSorted`,
slot `i` has both `vertex` and `orderNumber` equal to `i`; its `later` and
`earlier` arrays are the rank-translations (through `vertexMapping`) of the
corresponding lists of the original vertex of rank `i`, and both are sorted
ascending. -/
theorem sorted_variant_renames (g : Graph) (hg : SimpleSym g) :
    ∃ arr sarr, computeDegeneracyOrderArray g = some arr ∧
      computeDegeneracyOrderArrayVerticesSorted g = some sarr ∧
      sarr.length = g.length ∧
      ∀ i < g.length,
        (sarr.getD i default).vertex = i ∧
        (sarr.getD i default).orderNumber = i ∧
        ∃ v < g.length, (arr.getD v default).orderNumber = i ∧
          ((sarr.getD i default).later).Perm
            ((arr.getD v default).later.map fun u => (arr.getD u default).orderNumber) ∧
          ((sarr.getD i default).earlier).Perm
            ((arr.getD v default).earlier.map fun u => (arr.getD u default).orderNumber) ∧
          List.Sorted (· ≤ ·) (sarr.getD i default).later ∧
          List.Sorted (· ≤ ·) (sarr.getD i default).earlier := by
  obtain ⟨stF, h1, inv, hfin⟩ := runPeel_spec g hg
  have hvm : ∀ w, w < g.length → stF.vertexMapping w = rk stF w := fun w hw =>
    inv.dead_vm w hw (final_dead inv hfin w hw)
  have harr : computeDegeneracyOrderArray g
      = some ((List.range g.length).map fun i =>
        (⟨(stF.ordering i).vertex, (stF.ordering i).orderNumber,
          (stF.ordering i).later, (stF.ordering i).earlier⟩ : NeighborListArray)) := by
    simp [computeDegeneracyOrderArray, h1]
  have hsarr : computeDegeneracyOrderArrayVerticesSorted g
      = some ((List.range g.length).map
        ((List.range g.length).foldl
          (fun arr v => upd arr (stF.vertexMapping v)
            (⟨stF.vertexMapping v, stF.vertexMapping v,
              sortNat ((stF.ordering v).later.map stF.vertexMapping),
              sortNat ((stF.ordering v).earlier.map stF.vertexMapping)⟩
              : NeighborListArray))
          fun _ => default)) := by
    simp [computeDegeneracyOrderArrayVerticesSorted, h1, sortNat]
  refine ⟨_, _, harr, hsarr, by simp, ?_⟩
  intro i hi
  obtain ⟨v, hvlt, hrkv⟩ := final_rk_surj inv hfin i hi
  have hfv : stF.vertexMapping v = i := by rw [hvm v hvlt, hrkv]
  have huniq : ∀ w ∈ List.range g.length, stF.vertexMapping w = i → w = v := by
    intro w hw he
    have hwlt := List.mem_range.mp hw
    rw [hvm w hwlt] at he
    exact final_rk_inj inv hfin w hwlt v hvlt (by rw [he, hrkv])
  have hslot : ((List.range g.length).foldl
      (fun arr v => upd arr (stF.vertexMapping v)
        (⟨stF.vertexMapping v, stF.vertexMapping v,
          sortNat ((stF.ordering v).later.map stF.vertexMapping),
          sortNat ((stF.ordering v).earlier.map stF.vertexMapping)⟩
          : NeighborListArray))
      fun _ => default) i
      = (⟨stF.vertexMapping v, stF.vertexMapping v,
          sortNat ((stF.ordering v).later.map stF.vertexMapping),
          sortNat ((stF.ordering v).earlier.map stF.vertexMapping)⟩
          : NeighborListArray) :=
    foldl_upd_hit _ _ (List.range g.length) _ (List.nodup_range _)
      (List.mem_range.mpr hvlt) hfv huniq
  rw [getD_map_range _ _ hi, hslot]
  have hlmap : ((((List.range g.length).map fun j =>
      (⟨(stF.ordering j).vertex, (stF.ordering j).orderNumber,
        (stF.ordering j).later, (stF.ordering j).earlier⟩
        : NeighborListArray)).getD v default).later.map fun u =>
      (((List.range g.length).map fun j =>
        (⟨(stF.ordering j).vertex, (stF.ordering j).orderNumber,
          (stF.ordering j).later, (stF.ordering j).earlier⟩
          : NeighborListArray)).getD u default).orderNumber)
      = (stF.ordering v).later.map stF.vertexMapping := by
    rw [getD_map_range _ _ hvlt]
    show (stF.ordering v).later.map _ = _
    apply List.map_congr_left
    intro u hu
    have humem : u ∈ nbrs g v := by
      rw [final_later hg inv hfin v hvlt] at hu
      exact (List.mem_filter.mp hu).1
    have hult : u < g.length := (hg.1 v hvlt).1 u humem
    rw [getD_map_range _ _ hult]
    show rk stF u = stF.vertexMapping u
    rw [hvm u hult]
  have hemap : ((((List.range g.length).map fun j =>
      (⟨(stF.ordering j).vertex, (stF.ordering j).orderNumber,
        (stF.ordering j).later, (stF.ordering j).earlier⟩
        : NeighborListArray)).getD v default).earlier.map fun u =>
      (((List.range g.length).map fun j =>
        (⟨(stF.ordering j).vertex, (stF.ordering j).orderNumber,
          (stF.ordering j).later, (stF.ordering j).earlier⟩
          : NeighborListArray)).getD u default).orderNumber)
      = (stF.ordering v).earlier.map stF.vertexMapping := by
    rw [getD_map_range _ _ hvlt]
    show (stF.ordering v).earlier.map _ = _
    apply List.map_congr_left
    intro u hu
    have humem : u ∈ nbrs g v := by
      rw [final_earlier hg inv hfin v hvlt] at hu
      exact (List.mem_filter.mp hu).1
    have hult : u < g.length := (hg.1 v hvlt).1 u humem
    rw [getD_map_range _ _ hult]
    show rk stF u = stF.vertexMapping u
    rw [hvm u hult]
  refine ⟨hfv, hfv, v, hvlt, ?_, ?_, ?_, ?_, ?_⟩
  · rw [getD_map_range _ _ hvlt]
    show rk stF v = i
    exact hrkv
  · show (sortNat ((stF.ordering v).later.map stF.vertexMapping)).Perm _
    rw [hlmap]
    exact sortNat_perm _
  · show (sortNat ((stF.ordering v).earlier.map stF.vertexMapping)).Perm _
    rw [hemap]
    exact sortNat_perm _
  · exact sortNat_sorted _
  · exact sortNat_sorted _

/-- Witness for C4 at the triangle graph. -/
theorem sorted_variant_renames_witness :
    ∃ arr sarr, computeDegeneracyOrderArray [[1, 2], [0, 2], [0, 1]] = some arr ∧
      computeDegeneracyOrderArrayVerticesSorted [[1, 2], [0, 2], [0, 1]] = some sarr ∧
      sarr.length = 3 ∧
      ∀ i < 3,
        (sarr.getD i default).vertex = i ∧
        (sarr.getD i default).orderNumber = i ∧
        ∃ v < 3, (arr.getD v default).orderNumber = i ∧
          ((sarr.getD i default).later).Perm
            ((arr.getD v default).later.map fun u => (arr.getD u default).orderNumber) ∧
          ((sarr.getD i default).earlier).Perm
            ((arr.getD v default).earlier.map fun u => (arr.getD u default).orderNumber) ∧
          List.Sorted (· ≤ ·) (sarr.getD i default).later ∧
          List.Sorted (· ≤ ·) (sarr.getD i default).earlier :=
  sorted_variant_renames [[1, 2], [0, 2], [0, 1]] (by decide)

/-- C5: in the sorted/renamed output, every `later` entry of slot `i` is
strictly greater than `i`, every `earlier` entry is strictly less than `i`,
and together they are exactly the renamed neighbourhood of `i` (the ranks of
the original vertex's neighbours). -/
theorem sorted_variant_partition (g : Graph) (hg : SimpleSym g) :
    ∃ arr sarr, computeDegeneracyOrderArray g = some arr ∧
      computeDegeneracyOrderArrayVerticesSorted g = some sarr ∧
      ∀ v < g.length,
        (∀ x ∈ (sarr.getD ((arr.getD v default).orderNumber) default).later,
          (arr.getD v default).orderNumber < x) ∧
        (∀ x ∈ (sarr.getD ((arr.getD v default).orderNumber) default).earlier,
          x < (arr.getD v default).orderNumber) ∧
        (∀ x, (x ∈ (sarr.getD ((arr.getD v default).orderNumber) default).later ∨
               x ∈ (sarr.getD ((arr.getD v default).orderNumber) default).earlier) ↔
          ∃ u ∈ nbrs g v, (arr.getD u default).orderNumber = x) := by
  obtain ⟨stF, h1, inv, hfin⟩ := runPeel_spec g hg
  have hvm : ∀ w, w < g.length → stF.vertexMapping w = rk stF w := fun w hw =>
    inv.dead_vm w hw (final_dead inv hfin w hw)
  have harr : computeDegeneracyOrderArray g
      = some ((List.range g.length).map fun i =>
        (⟨(stF.ordering i).vertex, (stF.ordering i).orderNumber,
          (stF.ordering i).later, (stF.ordering i).earlier⟩ : NeighborListArray)) := by
    simp [computeDegeneracyOrderArray, h1]
  have hsarr : computeDegeneracyOrderArrayVerticesSorted g
      = some ((List.range g.length).map
        ((List.range g.length).foldl
          (fun arr v => upd arr (stF.vertexMapping v)
            (⟨stF.vertexMapping v, stF.vertexMapping v,
              sortNat ((stF.ordering v).later.map stF.vertexMapping),
              sortNat ((stF.ordering v).earlier.map stF.vertexMapping)⟩
              : NeighborListArray))
          fun _ => default)) := by
    simp [computeDegeneracyOrderArrayVerticesSorted, h1, sortNat]
  refine ⟨_, _, harr, hsarr, ?_⟩
  intro v hvlt
  have hordv : (((List.range g.length).map fun j =>
      (⟨(stF.ordering j).vertex, (stF.ordering j).orderNumber,
        (stF.ordering j).later, (stF.ordering j).earlier⟩
        : NeighborListArray)).getD v default).orderNumber = rk stF v := by
    rw [getD_map_range _ _ hvlt]
  have hilt : rk stF v < g.length := final_rk_lt inv hfin v hvlt
  have hfv : stF.vertexMapping v = rk stF v := hvm v hvlt
  have huniq : ∀ w ∈ List.range g.length, stF.vertexMapping w = rk stF v → w = v := by
    intro w hw he
    have hwlt := List.mem_range.mp hw
    rw [hvm w hwlt] at he
    exact final_rk_inj inv hfin w hwlt v hvlt he
  have hslot : ((List.range g.length).foldl
      (fun arr v => upd arr (stF.vertexMapping v)
        (⟨stF.vertexMapping v, stF.vertexMapping v,
          sortNat ((stF.ordering v).later.map stF.vertexMapping),
          sortNat ((stF.ordering v).earlier.map stF.vertexMapping)⟩
          : NeighborListArray))
      fun _ => default) (rk stF v)
      = (⟨stF.vertexMapping v, stF.vertexMapping v,
          sortNat ((stF.ordering v).later.map stF.vertexMapping),
          sortNat ((stF.ordering v).earlier.map stF.vertexMapping)⟩
          : NeighborListArray) :=
    foldl_upd_hit _ _ (List.range g.length) _ (List.nodup_range _)
      (List.mem_range.mpr hvlt) hfv huniq
  rw [hordv, getD_map_range _ _ hilt, hslot]
  dsimp only
  have hlater := final_later hg inv hfin v hvlt
  have hearlier := final_earlier hg inv hfin v hvlt
  refine ⟨?_, ?_, ?_⟩
  · intro x hx
    rw [mem_sortNat, List.mem_map] at hx
    obtain ⟨u, hu, rfl⟩ := hx
    rw [hlater, List.mem_filter] at hu
    obtain ⟨humem, hlt⟩ := hu
    have hult : u < g.length := (hg.1 v hvlt).1 u humem
    rw [hvm u hult]
    simpa using hlt
  · intro x hx
    rw [mem_sortNat, List.mem_map] at hx
    obtain ⟨u, hu, rfl⟩ := hx
    rw [hearlier, List.mem_filter] at hu
    obtain ⟨humem, hlt⟩ := hu
    have hult : u < g.length := (hg.1 v hvlt).1 u humem
    rw [hvm u hult]
    simpa using hlt
  · intro x
    constructor
    · rintro (hx | hx)
      · rw [mem_sortNat, List.mem_map] at hx
        obtain ⟨u, hu, rfl⟩ := hx
        rw [hlater, List.mem_filter] at hu
        obtain ⟨humem, -⟩ := hu
        have hult : u < g.length := (hg.1 v hvlt).1 u humem
        refine ⟨u, humem, ?_⟩
        rw [getD_map_range _ _ hult, hvm u hult]
      · rw [mem_sortNat, List.mem_map] at hx
        obtain ⟨u, hu, rfl⟩ := hx
        rw [hearlier, List.mem_filter] at hu
        obtain ⟨humem, -⟩ := hu
        have hult : u < g.length := (hg.1 v hvlt).1 u humem
        refine ⟨u, humem, ?_⟩
        rw [getD_map_range _ _ hult, hvm u hult]
    · rintro ⟨u, humem, hxu⟩
      have hult : u < g.length := (hg.1 v hvlt).1 u humem
      rw [getD_map_range _ _ hult] at hxu
      have hxu2 : rk stF u = x := hxu
      have huv : u ≠ v := fun he => (hg.1 v hvlt).2.2 (he ▸ humem)
      have hne : rk stF u ≠ rk stF v :=
        fun he => huv (final_rk_inj inv hfin u hult v hvlt he)
      rcases Nat.lt_or_ge (rk stF v) (rk stF u) with hlt | hge
      · left
        rw [mem_sortNat, List.mem_map]
        refine ⟨u, ?_, by rw [hvm u hult, hxu2]⟩
        rw [hlater, List.mem_filter]
        exact ⟨humem, by simpa using hlt⟩
      · right
        have hlt2 : rk stF u < rk stF v := by omega
        rw [mem_sortNat, List.mem_map]
        refine ⟨u, ?_, by rw [hvm u hult, hxu2]⟩
        rw [hearlier, List.mem_filter]
        exact ⟨humem, by simpa using hlt2⟩

/-- Witness for C5 at the triangle graph. -/
theorem sorted_variant_partition_witness :
    ∃ arr sarr, computeDegeneracyOrderArray [[1, 2], [0, 2], [0, 1]] = some arr ∧
      computeDegeneracyOrderArrayVerticesSorted [[1, 2], [0, 2], [0, 1]] = some sarr ∧
      ∀ v < 3,
        (∀ x ∈ (sarr.getD ((arr.getD v default).orderNumber) default).later,
          (arr.getD v default).orderNumber < x) ∧
        (∀ x ∈ (sarr.getD ((arr.getD v default).orderNumber) default).earlier,
          x < (arr.getD v default).orderNumber) ∧
        (∀ x, (x ∈ (sarr.getD ((arr.getD v default).orderNumber) default).later ∨
               x ∈ (sarr.getD ((arr.getD v default).orderNumber) default).earlier) ↔
          ∃ u ∈ nbrs [[1, 2], [0, 2], [0, 1]] v,
            (arr.getD u default).orderNumber = x) :=
  sorted_variant_partition [[1, 2], [0, 2], [0, 1]] (by decide)

end DegCliques
